import Mathlib

/-! scram2: read loading, counting and aggregation (`fastx.go`).

A shallow embedding of the pure parts of `fastx.go` and the properties of its
read counting, filtering, normalisation, cross-file aggregation, reference
loading and reverse-complement code.

Modelling conventions.

* A Go `string` and a Go `[]byte` are byte sequences: `GoString = List UInt8`.
* A Go `float64` count is modelled by an exact rational number (`ℚ`); the
  counts built by the code are sums of `1.0`, which are exact in `float64`
  below `2^53`.
* A Go `map[string]V` is an association list `GoMap V` whose keys are pairwise
  distinct (`GoMap.WF`).  A `range` loop visits the entries in list order; Go
  leaves that order unspecified, and the theorems hold for every list, hence
  for every order.
* A run-time panic (index or slice bound out of range, negative `make` length)
  is the result `none`.
* The lines of a file are the tokens its `bufio.Scanner` yields; the rune
  mapping `unicode.ToUpper` behind `strings.ToUpper` is a parameter.
-/

namespace Scram2

/-- A Go `string` (or `[]byte`): a sequence of bytes. -/
abbrev GoString := List UInt8

/-- A Go `map[string]V`, as an association list. -/
abbrev GoMap (β : Type) := List (GoString × β)

namespace GoMap

variable {β : Type}

/-- The keys of a map, in iteration order. -/
def keys (m : GoMap β) : List GoString := m.map Prod.fst

/-- Well-formed maps hold every key once. -/
def WF (m : GoMap β) : Prop := m.keys.Nodup

instance decidableWF (m : GoMap β) : Decidable m.WF :=
  inferInstanceAs (Decidable m.keys.Nodup)

/-- The comma-ok lookup `v, ok := m[k]`. -/
def get? : GoMap β → GoString → Option β
  | [], _ => none
  | (k', v) :: m, k => if k' = k then some v else get? m k

/-- The assignment `m[k] = v`. -/
def set : GoMap β → GoString → β → GoMap β
  | [], k, v => [(k, v)]
  | (k', v') :: m, k, v => if k' = k then (k', v) :: m else (k', v') :: set m k v

/-- The built-in `delete(m, k)`. -/
def delete : GoMap β → GoString → GoMap β
  | [], _ => []
  | (k', v) :: m, k => if k' = k then delete m k else (k', v) :: delete m k

end GoMap

/-! ## `path.Base` (Go standard library) -/

/-- The byte `/`. -/
def slash : UInt8 := 47

/-- The loop of `path.Base` that strips trailing slashes. -/
def stripTrailingSlashes (p : GoString) : GoString :=
  (p.reverse.dropWhile (fun b => decide (b = slash))).reverse

/-- The part of a path after its last slash (the whole path when it has none). -/
def afterLastSlash (p : GoString) : GoString :=
  (p.reverse.takeWhile (fun b => decide (b ≠ slash))).reverse

/-- Go's `path.Base`: the last element of a path; `.` for the empty path and
`/` for a path of slashes only. -/
def pathBase (p : GoString) : GoString :=
  if p = [] then [46]
  else
    let q := afterLastSlash (stripTrailingSlashes p)
    if q = [] then [slash] else q

/-! ## `compileCounts` and `removeUnderMinCount` -/

/-- The expression `make([]float64, n)`: a zero vector, or a panic when `n < 0`. -/
def makeFloats (n : Int) : Option (List ℚ) :=
  if n < 0 then none else some (List.replicate n.toNat 0)

/-- The indexed store `a[pos] = count`: a panic when `pos` is out of range. -/
def storeAt (a : List ℚ) (pos : Nat) (count : ℚ) : Option (List ℚ) :=
  if pos < a.length then some (a.set pos count) else none

/-- The body of the innermost loop of `compileCounts` (lines 174-184): write
`count` into column `pos` of the vector of `srna`, allocating the vector the
first time `srna` is seen. -/
def mergeCount (no_of_files : Int) (pos : Nat) (table : GoMap (List ℚ))
    (srna : GoString) (count : ℚ) : Option (GoMap (List ℚ)) :=
  match table.get? srna with
  | some a =>
    match storeAt a pos count with
    | some a' => some (table.set srna a')
    | none => none
  | none =>
    match makeFloats no_of_files with
    | some a =>
      match storeAt a pos count with
      | some a' => some (table.set srna a')
      | none => none
    | none => none

/-- The loop `for srna, count := range seqMap` of `compileCounts`. -/
def mergeSeqMap (no_of_files : Int) (pos : Nat) :
    GoMap ℚ → GoMap (List ℚ) → Option (GoMap (List ℚ))
  | [], table => some table
  | (srna, count) :: rest, table =>
    match mergeCount no_of_files pos table srna count with
    | some table' => mergeSeqMap no_of_files pos rest table'
    | none => none

/-- The state of the merge in `compileCounts`: the table, the load order and
the next column. -/
structure MergeState where
  table : GoMap (List ℚ)
  load_order : List GoString
  pos : Nat

/-- The loop `for file, seqMap := range singleSeqMap` of `compileCounts`. -/
def mergeSingle (no_of_files : Int) : GoMap (GoMap ℚ) → MergeState → Option MergeState
  | [], st => some st
  | (file, seqMap) :: rest, st =>
    match mergeSeqMap no_of_files st.pos seqMap st.table with
    | some table' =>
      mergeSingle no_of_files rest
        { table := table', load_order := st.load_order ++ [pathBase file], pos := st.pos + 1 }
    | none => none

/-- The loop `for singleSeqMap := range srna_maps` of `compileCounts`, over the
maps received from the channel in arrival order. -/
def mergeAll (no_of_files : Int) : List (GoMap (GoMap ℚ)) → MergeState → Option MergeState
  | [], st => some st
  | singleSeqMap :: rest, st =>
    match mergeSingle no_of_files singleSeqMap st with
    | some st' => mergeAll no_of_files rest st'
    | none => none

/-- The inner loop of `removeUnderMinCount`: delete `srna` at every zero entry
of its (already fetched) vector. -/
def removeIfZero (srna : GoString) : List ℚ → GoMap (List ℚ) → GoMap (List ℚ)
  | [], table => table
  | i :: rest, table =>
    if i = 0 then removeIfZero srna rest (table.delete srna)
    else removeIfZero srna rest table

/-- The loop of `removeUnderMinCount` over the keys met by `range`: a key that
was deleted before it is reached is skipped. -/
def removeUnderMinCountLoop : List GoString → GoMap (List ℚ) → GoMap (List ℚ)
  | [], table => table
  | srna :: rest, table =>
    match table.get? srna with
    | some counts => removeUnderMinCountLoop rest (removeIfZero srna counts table)
    | none => removeUnderMinCountLoop rest table

/-- The function `removeUnderMinCount`. -/
def removeUnderMinCount (seq_map_all_counts : GoMap (List ℚ)) : GoMap (List ℚ) :=
  removeUnderMinCountLoop seq_map_all_counts.keys seq_map_all_counts

/-- The function `compileCounts`: the maps of the channel `srna_maps` are given
in arrival order. -/
def compileCounts (srna_maps : List (GoMap (GoMap ℚ))) (no_of_files : Int) (min_count : ℚ) :
    Option (GoMap (List ℚ) × List GoString) :=
  match mergeAll no_of_files srna_maps { table := [], load_order := [], pos := 0 } with
  | some st =>
    if min_count > 1 then some (removeUnderMinCount st.table, st.load_order)
    else some (st.table, st.load_order)
  | none => none

/-- The channel contents when every worker sends `map{fileName: srnaMap}`, as
`loadFastx` does (line 114). -/
def singleFileMaps (arrivals : List (GoString × GoMap ℚ)) : List (GoMap (GoMap ℚ)) :=
  arrivals.map (fun p => [(p.1, p.2)])

/-! ## Predicates and functions used to state the properties of the merge -/

/-- Every vector of the table has length `N`. -/
def Vecs (N : Nat) (table : GoMap (List ℚ)) : Prop :=
  ∀ s v, table.get? s = some v → v.length = N

/-- The vector of `s` in the table, or the fresh zero vector when `s` is new. -/
def vecOf (N : Nat) (table : GoMap (List ℚ)) (s : GoString) : List ℚ :=
  (table.get? s).getD (List.replicate N 0)

/-- The count of `s` in one arrival, `0` when `s` is not a key of it. -/
def column (s : GoString) (p : GoString × GoMap ℚ) : ℚ := (p.2.get? s).getD 0

/-- The vector of `s` once the arrivals `done` are merged. -/
def rowAfter (N : Nat) (done : List (GoString × GoMap ℚ)) (s : GoString) : List ℚ :=
  done.map (column s) ++ List.replicate (N - done.length) 0

/-- The sequence `s` is a key of one of the arrivals. -/
def SeenIn (done : List (GoString × GoMap ℚ)) (s : GoString) : Prop :=
  ∃ p ∈ done, s ∈ GoMap.keys p.2

/-- The invariant of the merge loop once the arrivals `done` are merged. -/
structure MergeInv (N : Nat) (done : List (GoString × GoMap ℚ)) (st : MergeState) : Prop where
  pos_eq : st.pos = done.length
  order_eq : st.load_order = done.map (fun p => pathBase p.1)
  wf : st.table.WF
  seen : ∀ s, SeenIn done s → st.table.get? s = some (rowAfter N done s)
  unseen : ∀ s, ¬ SeenIn done s → st.table.get? s = none

/-! ## `loadFastx` and its helpers -/

/-- A Go byte slice as `scanner.Bytes()` returns it: its elements `bytes`, and
the bytes `spare` of the backing array that follow them up to the capacity of
the slice. -/
structure ByteSlice where
  bytes : GoString
  spare : GoString

/-- The slice expression `fasta_line[:1]`: Go allows the upper bound of a slice
expression to reach the capacity, so it is the first byte of the line, or for
an empty line the first spare byte; it panics when the capacity is 0. -/
def ByteSlice.upTo1 (fasta_line : ByteSlice) : Option GoString :=
  match fasta_line.bytes ++ fasta_line.spare with
  | [] => none
  | b :: _ => some [b]

/-- The function `addFullLengthRead`. -/
def addFullLengthRead (srna_map : GoMap ℚ) (fasta_line : GoString) (total_count : ℚ)
    (_seq_next : Bool) : GoMap ℚ × ℚ × Bool :=
  match srna_map.get? fasta_line with
  | some srna_count => (srna_map.set fasta_line (srna_count + 1), total_count + 1, false)
  | none => (srna_map.set fasta_line 1, total_count + 1, false)

/-- The variables of the line loop of `loadFastx`. -/
structure CountState where
  srnaMap : GoMap ℚ
  totalCount : ℚ
  seqNext : Bool

/-- The second `case` condition of the line loop, without the flag:
`len(fasta_line) >= minLen && len(fasta_line) <= maxLen`. -/
def inBounds (minLen maxLen : Int) (fasta_line : ByteSlice) : Bool :=
  decide ((fasta_line.bytes.length : Int) ≥ minLen) && decide ((fasta_line.bytes.length : Int) ≤ maxLen)

/-- One iteration of the line loop of `loadFastx` (lines 101-107). -/
def scanLine (firstChar : GoString) (minLen maxLen : Int) (st : CountState)
    (fasta_line : ByteSlice) : Option CountState :=
  match fasta_line.upTo1 with
  | none => none
  | some head =>
    if head = firstChar then
      some { srnaMap := st.srnaMap, totalCount := st.totalCount, seqNext := true }
    else if st.seqNext = true ∧ inBounds minLen maxLen fasta_line = true then
      match addFullLengthRead st.srnaMap fasta_line.bytes st.totalCount st.seqNext with
      | (m, t, n) => some { srnaMap := m, totalCount := t, seqNext := n }
    else some st

/-- The line loop of `loadFastx` (lines 99-108) over the lines the scanner yields. -/
def scanLines (firstChar : GoString) (minLen maxLen : Int) :
    List ByteSlice → CountState → Option CountState
  | [], st => some st
  | fasta_line :: rest, st =>
    match scanLine firstChar minLen maxLen st fasta_line with
    | some st' => scanLines firstChar minLen maxLen rest st'
    | none => none

/-- The reads the line loop of `loadFastx` hands to `addFullLengthRead`, in
order, when it starts with the flag `seqNext`: the same `switch` as `scanLine`,
recording the line instead of counting it. -/
def emittedReads (firstChar : GoString) (minLen maxLen : Int) :
    List ByteSlice → Bool → List GoString
  | [], _ => []
  | fasta_line :: rest, seqNext =>
    match fasta_line.upTo1 with
    | none => []
    | some head =>
      if head = firstChar then emittedReads firstChar minLen maxLen rest true
      else if seqNext = true ∧ inBounds minLen maxLen fasta_line = true then
        fasta_line.bytes :: emittedReads firstChar minLen maxLen rest false
      else emittedReads firstChar minLen maxLen rest seqNext

/-- The loop of `removeReadsBelowMin` over the entries met by `range`. -/
def removeBelowLoop (minCount : ℚ) : List (GoString × ℚ) → GoMap ℚ → ℚ → GoMap ℚ × ℚ
  | [], srnaMap, totalCount => (srnaMap, totalCount)
  | (srna, srnaCount) :: rest, srnaMap, totalCount =>
    if srnaCount < minCount then
      removeBelowLoop minCount rest (srnaMap.delete srna) (totalCount - srnaCount)
    else removeBelowLoop minCount rest srnaMap totalCount

/-- The function `removeReadsBelowMin`. -/
def removeReadsBelowMin (minCount : ℚ) (srnaMap : GoMap ℚ) (totalCount : ℚ) : GoMap ℚ × ℚ :=
  if minCount > 1 then removeBelowLoop minCount srnaMap srnaMap totalCount
  else (srnaMap, totalCount)

/-- The loop of `rpmrNormalize` over the entries met by `range`. -/
def rpmrLoop (total_count : ℚ) : List (GoString × ℚ) → GoMap ℚ → GoMap ℚ
  | [], srnaMap => srnaMap
  | (srna, srnaCount) :: rest, srnaMap =>
    rpmrLoop total_count rest (srnaMap.set srna (1000000 * srnaCount / total_count))

/-- The function `rpmrNormalize`.  A division by a zero total gives `±Inf` or
`NaN` in Go and has no counterpart in `ℚ`; the properties proved of this
function are for a nonzero total or an empty map. -/
def rpmrNormalize (srnaMap : GoMap ℚ) (total_count : ℚ) : GoMap ℚ :=
  rpmrLoop total_count srnaMap srnaMap

/-- The test `fileName[len(fileName)-2:] == "gz"` of `loadFastx` (line 89): the
slice expression panics when the name has fewer than two bytes. -/
def gzSuffix (fileName : GoString) : Option Bool :=
  if fileName.length < 2 then none
  else some (decide (fileName.drop (fileName.length - 2) = [103, 122]))

/-- The function `loadFastx` for one file: `content gz` is the list of lines
the scanner yields, read through the gzip reader when `gz` is true and raw
otherwise.  The result is the map sent to the channel and the total that is
printed. -/
def loadFastx (fileName : GoString) (content : Bool → List ByteSlice) (firstChar : GoString)
    (minLen maxLen : Int) (minCount : ℚ) (noNorm : Bool) : Option (GoMap (GoMap ℚ) × ℚ) :=
  match gzSuffix fileName with
  | none => none
  | some gz =>
    match scanLines firstChar minLen maxLen (content gz)
        { srnaMap := [], totalCount := 0, seqNext := false } with
    | none => none
    | some st =>
      match removeReadsBelowMin minCount st.srnaMap st.totalCount with
      | (srnaMap, totalCount) =>
        if noNorm = false then some ([(fileName, rpmrNormalize srnaMap totalCount)], totalCount)
        else some ([(fileName, srnaMap)], totalCount)

/-- The sum of the counts stored in a per-file map. -/
def sumCounts (m : GoMap ℚ) : ℚ := (m.map Prod.snd).sum

/-- The fold of `addFullLengthRead` over a list of reads. -/
def countReads : List GoString → GoMap ℚ × ℚ → GoMap ℚ × ℚ
  | [], acc => acc
  | r :: rest, acc =>
    countReads rest ((addFullLengthRead acc.1 r acc.2 true).1, (addFullLengthRead acc.1 r acc.2 true).2.1)

/-- The invariant of counting: the map holds the multiplicity of every read
counted so far, and the total their number. -/
structure CountInv (reads : List GoString) (acc : GoMap ℚ × ℚ) : Prop where
  wf : GoMap.WF acc.1
  total_eq : acc.2 = (reads.length : ℚ)
  sum_eq : sumCounts acc.1 = acc.2
  get_eq : ∀ s, GoMap.get? acc.1 s = if reads.count s = 0 then none else some (reads.count s : ℚ)

/-! ## Example data -/

/-- The read `ACGTACGTAC`. -/
def readACGTACGTAC : GoString := [65, 67, 71, 84, 65, 67, 71, 84, 65, 67]

/-- The read `TTTTTTTT`. -/
def readTTTTTTTT : GoString := [84, 84, 84, 84, 84, 84, 84, 84]

/-- The header line `>r`. -/
def headerR : GoString := [62, 114]

/-- The path `data/file1.fa`. -/
def file1 : GoString := [100, 97, 116, 97, 47, 102, 105, 108, 101, 49, 46, 102, 97]

/-- The path `data/file2.fa`. -/
def file2 : GoString := [100, 97, 116, 97, 47, 102, 105, 108, 101, 50, 46, 102, 97]

/-- A scanner token followed in the buffer by a newline. -/
def lineOf (bytes : GoString) : ByteSlice := { bytes := bytes, spare := [10] }

/-- The lines of file 1: the read `ACGTACGTAC` twice, each under a header. -/
def lines1 : List ByteSlice :=
  [lineOf headerR, lineOf readACGTACGTAC, lineOf headerR, lineOf readACGTACGTAC]

/-- The lines of file 2: the read `TTTTTTTT` twice, each under a header. -/
def lines2 : List ByteSlice :=
  [lineOf headerR, lineOf readTTTTTTTT, lineOf headerR, lineOf readTTTTTTTT]

/-- Two per-file maps in arrival order: file 1 holds `ACGTACGTAC` twice, file 2
holds `TTTTTTTT` twice. -/
def exampleArrivals : List (GoString × GoMap ℚ) :=
  [(file1, [(readACGTACGTAC, 2)]), (file2, [(readTTTTTTTT, 2)])]

/-- A marker line: the first `case` of the line loop holds,
`bytes.Equal(fasta_line[:1], firstChar)`. -/
def isMarkerLine (firstChar : GoString) (fasta_line : ByteSlice) : Bool :=
  decide (fasta_line.upTo1 = some firstChar)

/-- A non-marker line: the first `case` of the line loop is evaluated and does
not hold. -/
def isPlainLine (firstChar : GoString) (fasta_line : ByteSlice) : Bool :=
  match fasta_line.upTo1 with
  | some head => decide (head ≠ firstChar)
  | none => false

/-- The number of marker lines. -/
def markerCount (firstChar : GoString) (lines : List ByteSlice) : Nat :=
  lines.countP (isMarkerLine firstChar)

/-! ## `reverseComplement`

A Go `rune` is modelled by its code point, a natural number: the runes met here
come from decoding a string or from the `complement` table and are never
negative. -/

/-- A continuation byte of UTF-8: `locb <= b && b <= hicb`. -/
def isCont (b : UInt8) : Bool := decide (0x80 ≤ b) && decide (b ≤ 0xBF)

/-- Go's `decoderune` on a string starting with the non-ASCII byte `b0` followed
by `rest`: the rune, and how many bytes of `rest` it takes.  An ill-formed
sequence yields `U+FFFD` and takes the byte `b0` only.  The bit fields of the
Go code are disjoint, so `|` and `<<` are written with `+` and `*`. -/
def decodeMulti (b0 : UInt8) (rest : GoString) : Nat × Nat :=
  if 0xC0 ≤ b0 ∧ b0 < 0xE0 then
    match rest with
    | b1 :: _ =>
      if isCont b1 = true then
        let r := (b0.toNat % 32) * 64 + b1.toNat % 64
        if 0x7F < r then (r, 1) else (0xFFFD, 0)
      else (0xFFFD, 0)
    | _ => (0xFFFD, 0)
  else if 0xE0 ≤ b0 ∧ b0 < 0xF0 then
    match rest with
    | b1 :: b2 :: _ =>
      if isCont b1 = true ∧ isCont b2 = true then
        let r := (b0.toNat % 16) * 4096 + (b1.toNat % 64) * 64 + b2.toNat % 64
        if 0x7FF < r ∧ ¬ (0xD800 ≤ r ∧ r ≤ 0xDFFF) then (r, 2) else (0xFFFD, 0)
      else (0xFFFD, 0)
    | _ => (0xFFFD, 0)
  else if 0xF0 ≤ b0 ∧ b0 < 0xF8 then
    match rest with
    | b1 :: b2 :: b3 :: _ =>
      if isCont b1 = true ∧ isCont b2 = true ∧ isCont b3 = true then
        let r := (b0.toNat % 8) * 262144 + (b1.toNat % 64) * 4096 + (b2.toNat % 64) * 64
          + b3.toNat % 64
        if 0xFFFF < r ∧ r ≤ 0x10FFFF then (r, 3) else (0xFFFD, 0)
      else (0xFFFD, 0)
    | _ => (0xFFFD, 0)
  else (0xFFFD, 0)

/-- The conversion `[]rune(seq)`, with a bound on the number of runes. -/
def decodeRunesAux : Nat → GoString → List Nat
  | 0, _ => []
  | _ + 1, [] => []
  | fuel + 1, b0 :: rest =>
    if b0 < 0x80 then b0.toNat :: decodeRunesAux fuel rest
    else (decodeMulti b0 rest).1 :: decodeRunesAux fuel (rest.drop (decodeMulti b0 rest).2)

/-- The conversion `[]rune(seq)`: a string of `n` bytes has at most `n` runes. -/
def decodeRunes (seq : GoString) : List Nat := decodeRunesAux seq.length seq

/-- The bytes `result.WriteRune(r)` appends (`utf8.AppendRune`): a rune that is
out of range or a surrogate is written as `U+FFFD`. -/
def encodeRune (r : Nat) : GoString :=
  if r < 0x80 then [UInt8.ofNat r]
  else if r ≤ 0x7FF then [UInt8.ofNat (0xC0 + r / 64), UInt8.ofNat (0x80 + r % 64)]
  else if 0x10FFFF < r ∨ (0xD800 ≤ r ∧ r ≤ 0xDFFF) then [0xEF, 0xBF, 0xBD]
  else if r ≤ 0xFFFF then
    [UInt8.ofNat (0xE0 + r / 4096), UInt8.ofNat (0x80 + (r / 64) % 64),
      UInt8.ofNat (0x80 + r % 64)]
  else
    [UInt8.ofNat (0xF0 + r / 262144), UInt8.ofNat (0x80 + (r / 4096) % 64),
      UInt8.ofNat (0x80 + (r / 64) % 64), UInt8.ofNat (0x80 + r % 64)]

/-- The map literal `complement` of `reverseComplement`:
`'A': 'T', 'C': 'G', 'G': 'C', 'T': 'A', 'N': 'N'`. -/
def complement : List (Nat × Nat) := [(65, 84), (67, 71), (71, 67), (84, 65), (78, 78)]

/-- The lookup `m[r]` in a `map[rune]rune`: the zero rune for a missing key. -/
def runeMapGet : List (Nat × Nat) → Nat → Nat
  | [], _ => 0
  | (k, v) :: m, r => if k = r then v else runeMapGet m r

/-- The loop `for i := len(runes) - 1; i >= 0; i--` of `reverseComplement`,
with `n = i + 1`; the index expression `runes[i]` panics out of range. -/
def reverseComplementLoop (runes : List Nat) : Nat → GoString → Option GoString
  | 0, result => some result
  | i + 1, result =>
    match runes[i]? with
    | some r => reverseComplementLoop runes i (result ++ encodeRune (runeMapGet complement r))
    | none => none

/-- The function `reverseComplement`. -/
def reverseComplement (seq : GoString) : Option GoString :=
  reverseComplementLoop (decodeRunes seq) (decodeRunes seq).length []

/-- The alphabet `A`, `C`, `G`, `T`, `N`. -/
def bases : List UInt8 := [65, 67, 71, 84, 78]

/-- The complement of a base as the specification states it: `A` and `T` are
exchanged, `C` and `G` are exchanged, `N` is kept. -/
def specComplement (b : UInt8) : UInt8 :=
  if b = 65 then 84 else if b = 84 then 65 else if b = 67 then 71 else if b = 71 then 67 else b

/-- The string `ACGT`. -/
def seqACGT : GoString := [65, 67, 71, 84]

/-- The string `AATTCCGG`. -/
def seqAATTCCGG : GoString := [65, 65, 84, 84, 67, 67, 71, 71]

/-- The string `CCGGAATT`. -/
def seqCCGGAATT : GoString := [67, 67, 71, 71, 65, 65, 84, 84]

/-! ## `loadFiles` and `IndvSeqLoad` -/

/-- A read file: its path and the lines the scanner yields from it, read
through the gzip reader (`content true`) or raw (`content false`). -/
structure ReadFile where
  fileName : GoString
  content : Bool → List ByteSlice

/-- The file type `fa`. -/
def fileTypeFa : GoString := [102, 97]

/-- The file type `fq`. -/
def fileTypeFq : GoString := [102, 113]

/-- The `switch` of `loadFiles`: the marker `>` for `fa`, `@` for `fq`, and no
worker for another file type. -/
def markerOf (fileType : GoString) : Option GoString :=
  if fileType = fileTypeFa then some [62]
  else if fileType = fileTypeFq then some [64]
  else none

/-- The workers of `loadFiles`: the maps `loadFastx` sends to the channel, for
the files in the order in which their workers complete. -/
def loadAll (firstChar : GoString) (minLen maxLen : Int) (minCount : ℚ) (noNorm : Bool) :
    List ReadFile → Option (List (GoMap (GoMap ℚ)))
  | [] => some []
  | f :: rest =>
    match loadFastx f.fileName f.content firstChar minLen maxLen minCount noNorm with
    | some (final_map, _) =>
      match loadAll firstChar minLen maxLen minCount noNorm rest with
      | some maps => some (final_map :: maps)
      | none => none
    | none => none

/-- The function `loadFiles`, for the files of `seqFiles` listed in the order in
which their workers complete: the number of files and the contents of the
channel.  The result is `none` when a worker panics, and when the file type
starts no worker for a nonempty list, as the channel is then never closed. -/
def loadFiles (seqFiles : List ReadFile) (fileType : GoString) (minLen maxLen : Int)
    (minCount : ℚ) (noNorm : Bool) : Option (Int × List (GoMap (GoMap ℚ))) :=
  match seqFiles with
  | [] => some (0, [])
  | _ :: _ =>
    match markerOf fileType with
    | some firstChar =>
      match loadAll firstChar minLen maxLen minCount noNorm seqFiles with
      | some srnaMaps => some ((seqFiles.length : Int), srnaMaps)
      | none => none
    | none => none

/-- The function `IndvSeqLoad` (the parameter `adapter` is not used by the code). -/
def IndvSeqLoad (seqFiles : List ReadFile) (fileType : GoString) (minLen maxLen : Int)
    (minCount : ℚ) (noNorm : Bool) : Option (GoMap (List ℚ) × List GoString) :=
  match loadFiles seqFiles fileType minLen maxLen minCount noNorm with
  | some (noOfFiles, srnaMaps) => compileCounts srnaMaps noOfFiles minCount
  | none => none

/-- The file can be read through: the test on its name does not panic and every
line has a capacity of at least one byte. -/
def loadable (f : ReadFile) : Bool :=
  match gzSuffix f.fileName with
  | some gz => (f.content gz).all (fun l => l.upTo1.isSome)
  | none => false

/-- The qualifying reads of a file: the reads the line loop of `loadFastx`
emits on it. -/
def readsOf (firstChar : GoString) (minLen maxLen : Int) (f : ReadFile) : List GoString :=
  match gzSuffix f.fileName with
  | some gz => emittedReads firstChar minLen maxLen (f.content gz) false
  | none => []

/-- Example file 1: `ACGTACGTAC` read twice. -/
def exampleFile1 : ReadFile := { fileName := file1, content := fun _ => lines1 }

/-- Example file 2: `TTTTTTTT` read twice, `ACGTACGTAC` absent. -/
def exampleFile2 : ReadFile := { fileName := file2, content := fun _ => lines2 }

/-- The invariant of the per-file counter: the map is well formed, the total is
the sum of its counts, and every count is at least 1. -/
structure PerFileInv (m : GoMap ℚ) (total : ℚ) : Prop where
  wf : GoMap.WF m
  total_eq : total = sumCounts m
  one_le : ∀ e ∈ m, 1 ≤ e.2

/-- What `loadFastx` sends for the file `f`: a well-formed map without zero
count, whose keys are the qualifying reads of `f`, restricted, for a minimum
greater than 1, to those read at least `minCount` times. -/
structure SentFor (firstChar : GoString) (minLen maxLen : Int) (minCount : ℚ) (f : ReadFile)
    (p : GoString × GoMap ℚ) : Prop where
  name_eq : p.1 = f.fileName
  wf : GoMap.WF p.2
  ne_zero : ∀ s v, GoMap.get? p.2 s = some v → v ≠ 0
  keys_iff : ∀ s, s ∈ GoMap.keys p.2 ↔
    (s ∈ readsOf firstChar minLen maxLen f ∧
      (minCount > 1 → minCount ≤ ((readsOf firstChar minLen maxLen f).count s : ℚ)))

/-- The output byte the specification asks for at a rune of the input: the
complement of a base of the alphabet, and one fixed sentinel, the byte 0, at
every other rune. -/
def complementOrSentinel (r : Nat) : UInt8 :=
  if r = 65 then 84 else if r = 84 then 65 else if r = 67 then 71 else if r = 71 then 67
  else if r = 78 then 78 else 0

/-! ## The lines a `bufio.Scanner` yields (Go standard library) -/

/-- The part of `data` before its first newline, and the part after it when
there is one (`bytes.IndexByte(data, '\n')` in `bufio.ScanLines`). -/
def splitNewline : GoString → GoString × Option GoString
  | [] => ([], none)
  | b :: rest =>
    if b = 10 then ([], some rest)
    else ((b :: (splitNewline rest).1), (splitNewline rest).2)

/-- The token `dropCR(line)` of `bufio.ScanLines`, as a slice of the scanner
buffer: `after` holds the bytes of the buffer that follow the line, and a
dropped carriage return stays in the buffer right after the token. -/
def lineToken (line after : GoString) : ByteSlice :=
  if line.getLast? = some 13 then { bytes := line.dropLast, spare := 13 :: after }
  else { bytes := line, spare := after }

/-- The tokens `scanner.Bytes()` yields on the input `data` with the split
function `bufio.ScanLines`, for at most `fuel` lines: a line ends at a newline,
which is kept in the buffer after the token, or at the end of the input. -/
def scanTokens : Nat → GoString → List ByteSlice
  | 0, _ => []
  | _ + 1, [] => []
  | fuel + 1, b :: data =>
    match (splitNewline (b :: data)).2 with
    | some rest =>
      lineToken (splitNewline (b :: data)).1 (10 :: rest) :: scanTokens fuel rest
    | none => [lineToken (splitNewline (b :: data)).1 []]

/-- The lines the scanner yields on the input `data`: an input of `n` bytes has
at most `n` lines. -/
def scannerLines (data : GoString) : List ByteSlice := scanTokens data.length data

/-- What `bufio.ScanLines` guarantees of a token: an empty token is followed in
the buffer by the newline or the carriage return that ended it. -/
def scannerToken (l : ByteSlice) : Bool :=
  decide (l.bytes ≠ []) || decide (l.spare.head? = some 10) || decide (l.spare.head? = some 13)

/-- An input with a header, a blank line, a read, and a blank line ended by a
carriage return and a newline: `>r\n\nACGTACGTAC\n\r\n`. -/
def exampleInput : GoString :=
  headerR ++ [10, 10] ++ readACGTACGTAC ++ [10, 13, 10]

/-! ## `RefLoad` -/

/-- Go's `strings.Map` for a mapping without negative result: every rune of the
string, an ill-formed byte counting as `U+FFFD`, is replaced by the encoding of
its image. -/
def stringsMap (mapping : Nat → Nat) (s : GoString) : GoString :=
  ((decodeRunes s).map (fun c => encodeRune (mapping c))).flatten

/-- Go's `strings.ToUpper`: on a string of ASCII bytes the letters `a` to `z`
are moved to `A` to `Z`; any other string goes through `strings.Map` with the
rune mapping `unicode.ToUpper`, which is a parameter here. -/
def stringsToUpper (unicodeToUpper : Nat → Nat) (s : GoString) : GoString :=
  if s.all (fun c => decide (c < 0x80)) = true then
    s.map (fun c => if 97 ≤ c ∧ c ≤ 122 then c - 32 else c)
  else stringsMap unicodeToUpper s

/-- The struct `HeaderRef`. -/
structure HeaderRef where
  Header : GoString
  Seq : GoString
  ReverseSeq : GoString

/-- The variables of the line loop of `RefLoad`. -/
structure RefState where
  totalLength : Int
  refSlice : List HeaderRef
  header : GoString
  refSeq : GoString

/-- The test `strings.HasPrefix(fastaLine, ">")`. -/
def isHeaderLine (fastaLine : GoString) : Bool := decide (fastaLine.take 1 = [62])

/-- One iteration of the line loop of `RefLoad` (lines 232-243). -/
def refLine (unicodeToUpper : Nat → Nat) (st : RefState) (fastaLine : GoString) :
    Option RefState :=
  if isHeaderLine fastaLine = true then
    match reverseComplement st.refSeq with
    | some rc =>
      some { totalLength := st.totalLength,
             refSlice := st.refSlice ++ [{ Header := st.header, Seq := st.refSeq, ReverseSeq := rc }],
             header := fastaLine.drop 1,
             refSeq := [] }
    | none => none
  else if fastaLine.length ≠ 0 then
    some { totalLength := st.totalLength + (fastaLine.length : Int),
           refSlice := st.refSlice,
           header := st.header,
           refSeq := st.refSeq ++ stringsToUpper unicodeToUpper fastaLine }
  else some st

/-- The line loop of `RefLoad` over the lines `scanner.Text()` yields. -/
def refLines (unicodeToUpper : Nat → Nat) : List GoString → RefState → Option RefState
  | [], st => some st
  | fastaLine :: rest, st =>
    match refLine unicodeToUpper st fastaLine with
    | some st' => refLines unicodeToUpper rest st'
    | none => none

/-- The function `RefLoad` on the lines of the reference file: the records it
returns, and the combined length it prints.  The slice expression `refSlice[1:]`
panics on an empty slice. -/
def RefLoad (unicodeToUpper : Nat → Nat) (lines : List GoString) :
    Option (List HeaderRef × Int) :=
  match refLines unicodeToUpper lines
      { totalLength := 0, refSlice := [], header := [], refSeq := [] } with
  | some st =>
    match reverseComplement st.refSeq with
    | some rc =>
      match st.refSlice ++ [{ Header := st.header, Seq := st.refSeq, ReverseSeq := rc }] with
      | [] => none
      | _ :: refSlice => some (refSlice, st.totalLength)
    | none => none
  | none => none

/-- The sequence of a record as the specification states it: the concatenation,
in order, of the upper-cased non-empty lines that come before the next header
line. -/
def bodyBySpec (unicodeToUpper : Nat → Nat) : List GoString → GoString
  | [] => []
  | l :: rest =>
    if isHeaderLine l = true then []
    else if l = [] then bodyBySpec unicodeToUpper rest
    else stringsToUpper unicodeToUpper l ++ bodyBySpec unicodeToUpper rest

/-- The records as the specification states them, as pairs of header and
sequence: one for each header line, in file order, with the header line less
its first byte and the sequence of the lines that follow it. -/
def recordsBySpec (unicodeToUpper : Nat → Nat) : List GoString → List (GoString × GoString)
  | [] => []
  | l :: rest =>
    if isHeaderLine l = true then
      (l.drop 1, bodyBySpec unicodeToUpper rest) :: recordsBySpec unicodeToUpper rest
    else recordsBySpec unicodeToUpper rest

/-- The record with a given header and sequence. -/
def recordOf (p : GoString × GoString) : HeaderRef :=
  { Header := p.1, Seq := p.2, ReverseSeq := (decodeRunes p.2).reverse.map complementOrSentinel }

/-- The sum of the lengths of the lines that are not header lines. -/
def bodyLength : List GoString → Int
  | [] => 0
  | l :: rest => if isHeaderLine l = true then bodyLength rest else (l.length : Int) + bodyLength rest

/-- The header line `>h1`. -/
def headerH1 : GoString := [62, 104, 49]

/-- The header line `>h2`. -/
def headerH2 : GoString := [62, 104, 50]

/-- The string `TTTT`. -/
def seqTTTT : GoString := [84, 84, 84, 84]

/-- The string `AAAA`. -/
def seqAAAA : GoString := [65, 65, 65, 65]

/-- The comment line `;hg`. -/
def commentLine : GoString := [59, 104, 103]

/-- The lines of the reference file `>h1`, `ACGT`, `>h2`, `TTTT`. -/
def refLinesTwo : List GoString := [headerH1, seqACGT, headerH2, seqTTTT]

/-- The list `l` rearranged by the permutation `σ` of its positions: the element
at position `i` of `l` is at position `σ i` of the result. -/
def permuteBy {α : Type} (l : List α) (σ : Equiv.Perm (Fin l.length)) : List α :=
  List.ofFn (fun j => l.get (σ.symm j))

/-! # Theorems -/

/-! ## Lemmas on maps -/

namespace GoMap

variable {β : Type}

theorem get?_set (m : GoMap β) (k k' : GoString) (v : β) :
    (m.set k v).get? k' = if k = k' then some v else m.get? k' := by
  induction m with
  | nil => simp [set, get?]
  | cons e m ih =>
    obtain ⟨a, b⟩ := e
    by_cases h : a = k
    · subst h
      by_cases h' : a = k' <;> simp [set, get?, h']
    · by_cases h' : a = k'
      · subst h'
        have : ¬ k = a := fun e => h e.symm
        simp [set, get?, h, this]
      · simp [set, get?, h, h', ih]

theorem get?_eq_none_iff (m : GoMap β) (k : GoString) : m.get? k = none ↔ k ∉ m.keys := by
  induction m with
  | nil => simp [get?, keys]
  | cons e m ih =>
    obtain ⟨a, b⟩ := e
    by_cases h : a = k
    · simp [get?, keys, h]
    · have h' : ¬ k = a := fun e => h e.symm
      simpa [get?, keys, h, h'] using ih

theorem mem_keys_iff (m : GoMap β) (k : GoString) : k ∈ m.keys ↔ ∃ v, m.get? k = some v := by
  constructor
  · intro h
    cases hg : m.get? k with
    | none => exact absurd h ((get?_eq_none_iff m k).1 hg)
    | some v => exact ⟨v, rfl⟩
  · rintro ⟨v, hv⟩
    by_contra hk
    rw [(get?_eq_none_iff m k).2 hk] at hv
    cases hv

theorem keys_set (m : GoMap β) (k : GoString) (v : β) :
    (m.set k v).keys = if k ∈ m.keys then m.keys else m.keys ++ [k] := by
  induction m with
  | nil => simp [set, keys]
  | cons e m ih =>
    obtain ⟨a, b⟩ := e
    by_cases h : a = k
    · simp [set, keys, h]
    · have h' : ¬ k = a := fun e => h e.symm
      simp only [keys] at ih
      by_cases hm : k ∈ List.map Prod.fst m <;> simp [set, keys, h, h', hm, ih]

theorem WF_set (m : GoMap β) (k : GoString) (v : β) (h : m.WF) : (m.set k v).WF := by
  unfold WF at *
  rw [keys_set]
  by_cases hm : k ∈ m.keys
  · simpa [hm] using h
  · simp only [hm, if_false]
    exact List.Nodup.append h (List.nodup_singleton k) (by simpa using hm)

theorem keys_delete_sublist (m : GoMap β) (k : GoString) :
    (m.delete k).keys.Sublist m.keys := by
  induction m with
  | nil => simp [delete, keys]
  | cons e m ih =>
    obtain ⟨a, b⟩ := e
    simp only [keys] at ih
    by_cases h : a = k
    · simpa [delete, keys, h] using ih.cons _
    · simpa [delete, keys, h] using ih

theorem WF_delete (m : GoMap β) (k : GoString) (h : m.WF) : (m.delete k).WF :=
  List.Nodup.sublist (keys_delete_sublist m k) h

theorem get?_delete (m : GoMap β) (k k' : GoString) :
    (m.delete k).get? k' = if k = k' then none else m.get? k' := by
  induction m with
  | nil => simp [delete, get?]
  | cons e m ih =>
    obtain ⟨a, b⟩ := e
    by_cases h : a = k
    · subst h
      by_cases h' : a = k'
      · subst h'
        simpa [delete, get?] using ih
      · simp [delete, get?, h', ih]
    · by_cases h' : a = k'
      · subst h'
        have : ¬ k = a := fun e => h e.symm
        simp [delete, get?, h, this]
      · simp [delete, get?, h, h', ih]

end GoMap

/-! ## The merge of `compileCounts` -/

theorem vecOf_length {N : Nat} {table : GoMap (List ℚ)} (h : Vecs N table) (s : GoString) :
    (vecOf N table s).length = N := by
  unfold vecOf
  cases hg : table.get? s with
  | none => simp
  | some v => simpa using h s v hg

theorem mergeCount_eq (no_of_files : Int) (pos : Nat) (table : GoMap (List ℚ))
    (srna : GoString) (count : ℚ) (hN : 0 ≤ no_of_files) (hpos : pos < no_of_files.toNat)
    (hlen : Vecs no_of_files.toNat table) :
    mergeCount no_of_files pos table srna count
      = some (table.set srna ((vecOf no_of_files.toNat table srna).set pos count)) := by
  unfold mergeCount vecOf
  cases hg : table.get? srna with
  | some a =>
    have ha : a.length = no_of_files.toNat := hlen srna a hg
    simp [storeAt, ha, hpos]
  | none =>
    have : ¬ no_of_files < 0 := not_lt.mpr hN
    simp [makeFloats, storeAt, this, hpos]

theorem Vecs_set {N : Nat} {table : GoMap (List ℚ)} (h : Vecs N table) (k : GoString)
    (v : List ℚ) (hv : v.length = N) : Vecs N (table.set k v) := by
  intro s w hw
  rw [GoMap.get?_set] at hw
  by_cases hk : k = s
  · simp only [hk, if_true, Option.some.injEq] at hw
    exact hw ▸ hv
  · simp only [hk, if_false] at hw
    exact h s w hw

/-- The effect of merging one per-file map into the table. -/
theorem mergeSeqMap_spec (no_of_files : Int) (pos : Nat) (hN : 0 ≤ no_of_files)
    (hpos : pos < no_of_files.toNat) (seqMap : GoMap ℚ) :
    ∀ (table : GoMap (List ℚ)), seqMap.WF → table.WF → Vecs no_of_files.toNat table →
      ∃ table', mergeSeqMap no_of_files pos seqMap table = some table' ∧ table'.WF ∧
        Vecs no_of_files.toNat table' ∧
        ∀ s, table'.get? s =
          match seqMap.get? s with
          | some c => some ((vecOf no_of_files.toNat table s).set pos c)
          | none => table.get? s := by
  induction seqMap with
  | nil =>
    intro table _ hwf hlen
    exact ⟨table, rfl, hwf, hlen, fun s => by simp [GoMap.get?]⟩
  | cons e rest ih =>
    obtain ⟨k, c⟩ := e
    intro table hsm hwf hlen
    have hk : k ∉ GoMap.keys rest := by
      have := hsm
      simp only [GoMap.WF, GoMap.keys, List.map_cons, List.nodup_cons] at this
      exact this.1
    have hrest : GoMap.WF rest := by
      have := hsm
      simp only [GoMap.WF, GoMap.keys, List.map_cons, List.nodup_cons] at this
      exact this.2
    have hstep := mergeCount_eq no_of_files pos table k c hN hpos hlen
    have hlen1 : Vecs no_of_files.toNat
        (table.set k ((vecOf no_of_files.toNat table k).set pos c)) :=
      Vecs_set hlen k _ (by simp [vecOf_length hlen])
    obtain ⟨table', h1, h2, h3, h4⟩ := ih _ hrest (GoMap.WF_set table k _ hwf) hlen1
    refine ⟨table', ?_, h2, h3, ?_⟩
    · simp only [mergeSeqMap, hstep]
      exact h1
    · intro s
      rw [h4 s]
      by_cases hks : k = s
      · subst hks
        have hn : GoMap.get? rest k = none := (GoMap.get?_eq_none_iff rest k).2 hk
        simp [hn, GoMap.get?, GoMap.get?_set]
      · simp [GoMap.get?, hks, GoMap.get?_set, vecOf]

theorem column_of_not_mem (s : GoString) (p : GoString × GoMap ℚ)
    (h : s ∉ GoMap.keys p.2) : column s p = 0 := by
  simp [column, (GoMap.get?_eq_none_iff p.2 s).2 h]

theorem map_column_unseen (done : List (GoString × GoMap ℚ)) (s : GoString)
    (h : ¬ SeenIn done s) : done.map (column s) = List.replicate done.length 0 := by
  induction done with
  | nil => simp
  | cons p rest ih =>
    have h1 : s ∉ GoMap.keys p.2 := fun hm => h ⟨p, List.mem_cons_self _ _, hm⟩
    have h2 : ¬ SeenIn rest s := fun ⟨q, hq, hm⟩ => h ⟨q, List.mem_cons_of_mem _ hq, hm⟩
    simp [ih h2, column_of_not_mem s p h1, List.replicate_succ]

theorem MergeInv.vecs {N : Nat} {done : List (GoString × GoMap ℚ)} {st : MergeState}
    (inv : MergeInv N done st) (hle : done.length ≤ N) : Vecs N st.table := by
  intro s v hv
  by_cases hs : SeenIn done s
  · rw [inv.seen s hs] at hv
    cases hv
    simp [rowAfter]
    omega
  · rw [inv.unseen s hs] at hv
    cases hv

theorem MergeInv.vecOf_eq {N : Nat} {done : List (GoString × GoMap ℚ)} {st : MergeState}
    (inv : MergeInv N done st) (hle : done.length ≤ N) (s : GoString) :
    vecOf N st.table s = rowAfter N done s := by
  by_cases hs : SeenIn done s
  · simp [vecOf, inv.seen s hs]
  · simp only [vecOf, inv.unseen s hs, Option.getD_none, rowAfter, map_column_unseen done s hs]
    rw [← List.replicate_add]
    congr 1
    omega

theorem rowAfter_set (N : Nat) (done : List (GoString × GoMap ℚ)) (p : GoString × GoMap ℚ)
    (s : GoString) (hlt : done.length < N) :
    (rowAfter N done s).set done.length (column s p) = rowAfter N (done ++ [p]) s := by
  have hN : N - done.length = (N - (done.length + 1)) + 1 := by omega
  simp only [rowAfter, List.map_append, List.map_cons, List.map_nil, List.length_append,
    List.length_singleton, List.append_assoc, List.singleton_append]
  rw [hN, List.replicate_succ]
  have hl : (done.map (column s)).length = done.length := by simp
  rw [List.set_append_right _ _ (by simp)]
  simp

theorem rowAfter_snoc_zero (N : Nat) (done : List (GoString × GoMap ℚ))
    (p : GoString × GoMap ℚ) (s : GoString) (hlt : done.length < N) (hc : column s p = 0) :
    rowAfter N (done ++ [p]) s = rowAfter N done s := by
  have hN : N - done.length = (N - (done.length + 1)) + 1 := by omega
  simp only [rowAfter, List.map_append, List.map_cons, List.map_nil, List.length_append,
    List.length_singleton, List.append_assoc, List.singleton_append, hc]
  rw [hN, List.replicate_succ]

theorem seenIn_snoc (done : List (GoString × GoMap ℚ)) (p : GoString × GoMap ℚ)
    (s : GoString) : SeenIn (done ++ [p]) s ↔ SeenIn done s ∨ s ∈ GoMap.keys p.2 := by
  constructor
  · rintro ⟨q, hq, hm⟩
    rcases List.mem_append.1 hq with h | h
    · exact Or.inl ⟨q, h, hm⟩
    · rw [List.mem_singleton] at h
      exact Or.inr (h ▸ hm)
  · rintro (⟨q, hq, hm⟩ | hm)
    · exact ⟨q, List.mem_append_left _ hq, hm⟩
    · exact ⟨p, List.mem_append_right _ (List.mem_singleton_self p), hm⟩

/-- Merging one arrival keeps the invariant. -/
theorem mergeSingle_step (N : Nat) (done : List (GoString × GoMap ℚ))
    (p : GoString × GoMap ℚ) (st : MergeState) (hp : p.2.WF) (hlt : done.length < N)
    (inv : MergeInv N done st) :
    ∃ st', mergeSingle (N : Int) [(p.1, p.2)] st = some st' ∧ MergeInv N (done ++ [p]) st' := by
  have hN : (0 : Int) ≤ (N : Int) := Int.natCast_nonneg N
  have hpos : st.pos < (N : Int).toNat := by simpa [inv.pos_eq] using hlt
  have hv : Vecs (N : Int).toNat st.table := by simpa using inv.vecs (le_of_lt hlt)
  obtain ⟨table', h1, h2, _, h4⟩ := mergeSeqMap_spec (N : Int) st.pos hN hpos p.2 st.table hp inv.wf hv
  refine ⟨{ table := table', load_order := st.load_order ++ [pathBase p.1],
              pos := st.pos + 1 }, by simp only [mergeSingle, h1], ?_⟩
  have hget : ∀ s, table'.get? s =
      match p.2.get? s with
      | some c => some ((rowAfter N done s).set done.length c)
      | none => st.table.get? s := by
    intro s
    have := h4 s
    simpa [inv.vecOf_eq (le_of_lt hlt), inv.pos_eq] using this
  constructor
  · simp [inv.pos_eq]
  · simp [inv.order_eq]
  · exact h2
  · intro s hs
    rw [hget s]
    cases hg : p.2.get? s with
    | some c =>
      have hc : column s p = c := by simp [column, hg]
      simp only []
      rw [← hc, rowAfter_set N done p s hlt]
    | none =>
      have hnot : s ∉ GoMap.keys p.2 := (GoMap.get?_eq_none_iff p.2 s).1 hg
      have hseen : SeenIn done s := by
        rcases (seenIn_snoc done p s).1 hs with h | h
        · exact h
        · exact absurd h hnot
      simp only []
      rw [inv.seen s hseen, rowAfter_snoc_zero N done p s hlt (column_of_not_mem s p hnot)]
  · intro s hs
    have h1 : ¬ SeenIn done s := fun h => hs ((seenIn_snoc done p s).2 (Or.inl h))
    have h2 : s ∉ GoMap.keys p.2 := fun h => hs ((seenIn_snoc done p s).2 (Or.inr h))
    rw [hget s, (GoMap.get?_eq_none_iff p.2 s).2 h2]
    exact inv.unseen s h1

/-- Merging the remaining arrivals keeps the invariant. -/
theorem mergeAll_inv (N : Nat) (rest : List (GoString × GoMap ℚ)) :
    ∀ (done : List (GoString × GoMap ℚ)) (st : MergeState),
      (∀ p ∈ rest, GoMap.WF p.2) → done.length + rest.length ≤ N → MergeInv N done st →
      ∃ st', mergeAll (N : Int) (singleFileMaps rest) st = some st' ∧
        MergeInv N (done ++ rest) st' := by
  induction rest with
  | nil =>
    intro done st _ _ inv
    exact ⟨st, rfl, by simpa using inv⟩
  | cons p rest ih =>
    intro done st hwf hle inv
    have hlt : done.length < N := by
      simp only [List.length_cons] at hle
      omega
    obtain ⟨st1, h1, inv1⟩ := mergeSingle_step N done p st (hwf p (List.mem_cons_self _ _)) hlt inv
    obtain ⟨st2, h2, inv2⟩ := ih (done ++ [p]) st1
      (fun q hq => hwf q (List.mem_cons_of_mem _ hq))
      (by simp only [List.length_append, List.length_cons, List.length_nil] at hle ⊢; omega) inv1
    refine ⟨st2, ?_, by simpa using inv2⟩
    simp only [singleFileMaps, List.map_cons, mergeAll, h1]
    exact h2

theorem mergeInv_init (N : Nat) : MergeInv N [] { table := [], load_order := [], pos := 0 } where
  pos_eq := rfl
  order_eq := rfl
  wf := List.nodup_nil
  seen := fun _ ⟨_, hp, _⟩ => absurd hp (List.not_mem_nil _)
  unseen := fun _ _ => rfl

/-! ## C1: columns and load order -/

/-- C1: with `no_of_files` equal to the number `N` of arrivals and
`min_count <= 1`, `compileCounts` returns (without panic) a load order holding
the base name of the `i`-th arrival at index `i`, and a table whose keys are
exactly the sequences that are a key of some arrival, the vector of such a
sequence holding at column `i` its count in the `i`-th arrival, `0` when it is
not a key there; no arrival gives the empty table and the empty load order. -/
theorem compileCounts_columns (arrivals : List (GoString × GoMap ℚ)) (min_count : ℚ)
    (hwf : ∀ p ∈ arrivals, GoMap.WF p.2) (hmin : min_count ≤ 1) :
    ∃ table load_order,
      compileCounts (singleFileMaps arrivals) (arrivals.length : Int) min_count
        = some (table, load_order) ∧
      load_order = arrivals.map (fun p => pathBase p.1) ∧
      GoMap.WF table ∧
      (∀ s, s ∈ GoMap.keys table ↔ ∃ p ∈ arrivals, s ∈ GoMap.keys p.2) ∧
      (∀ s, s ∈ GoMap.keys table →
        GoMap.get? table s = some (arrivals.map (fun p => (GoMap.get? p.2 s).getD 0))) ∧
      (arrivals = [] → table = [] ∧ load_order = []) := by
  obtain ⟨st, h1, inv⟩ := mergeAll_inv arrivals.length arrivals [] _ hwf (by simp)
    (mergeInv_init arrivals.length)
  simp only [List.nil_append] at inv
  have hkeys : ∀ s, s ∈ GoMap.keys st.table ↔ ∃ p ∈ arrivals, s ∈ GoMap.keys p.2 := by
    intro s
    constructor
    · intro hs
      by_contra hn
      exact (GoMap.get?_eq_none_iff st.table s).1 (inv.unseen s hn) hs
    · intro hs
      exact (GoMap.mem_keys_iff st.table s).2 ⟨_, inv.seen s hs⟩
  refine ⟨st.table, st.load_order, ?_, inv.order_eq, inv.wf, hkeys, ?_, ?_⟩
  · have : ¬ min_count > 1 := not_lt.mpr hmin
    simp [compileCounts, h1, this]
  · intro s hs
    rw [inv.seen s ((hkeys s).1 hs)]
    simp [rowAfter, column]
  · intro hnil
    subst hnil
    simp only [singleFileMaps, List.map_nil, mergeAll, Option.some.injEq] at h1
    subst h1
    exact ⟨rfl, rfl⟩

/-! ## Counting reads -/

theorem sumCounts_set (m : GoMap ℚ) (k : GoString) (v : ℚ) :
    sumCounts (m.set k v) = sumCounts m - (m.get? k).getD 0 + v := by
  induction m with
  | nil => simp [sumCounts, GoMap.set, GoMap.get?]
  | cons e m ih =>
    obtain ⟨a, b⟩ := e
    simp only [sumCounts] at ih
    by_cases h : a = k
    · simp only [sumCounts, GoMap.set, GoMap.get?, h, if_true, List.map_cons, List.sum_cons,
        Option.getD_some]
      ring
    · simp only [sumCounts, GoMap.set, GoMap.get?, h, if_false, List.map_cons, List.sum_cons, ih]
      ring

theorem addFullLengthRead_eq (m : GoMap ℚ) (r : GoString) (t : ℚ) (b : Bool) :
    addFullLengthRead m r t b = (m.set r ((m.get? r).getD 0 + 1), t + 1, false) := by
  unfold addFullLengthRead
  cases m.get? r <;> simp

theorem countInv_nil : CountInv [] ([], 0) where
  wf := List.nodup_nil
  total_eq := by simp
  sum_eq := by simp [sumCounts]
  get_eq := fun s => by simp [GoMap.get?]

theorem countInv_step (done : List GoString) (acc : GoMap ℚ × ℚ) (r : GoString)
    (inv : CountInv done acc) :
    CountInv (done ++ [r])
      ((addFullLengthRead acc.1 r acc.2 true).1, (addFullLengthRead acc.1 r acc.2 true).2.1) := by
  rw [addFullLengthRead_eq]
  have hg : (GoMap.get? acc.1 r).getD 0 = (done.count r : ℚ) := by
    rw [inv.get_eq r]
    by_cases h : done.count r = 0 <;> simp [h]
  constructor
  · exact GoMap.WF_set _ _ _ inv.wf
  · simp [inv.total_eq]
  · simp only [sumCounts_set, inv.sum_eq]
    ring
  · intro s
    simp only [GoMap.get?_set, hg, List.count_append]
    by_cases h : r = s
    · subst h
      simp
    · have h' : ¬ (r == s) = true := by simpa using h
      simp only [h, if_false, inv.get_eq s, List.count_cons, List.count_nil, h']
      simp

theorem countReads_inv (reads : List GoString) :
    ∀ (done : List GoString) (acc : GoMap ℚ × ℚ), CountInv done acc →
      CountInv (done ++ reads) (countReads reads acc) := by
  induction reads with
  | nil =>
    intro done acc inv
    simpa [countReads] using inv
  | cons r rest ih =>
    intro done acc inv
    have := ih (done ++ [r]) _ (countInv_step done acc r inv)
    simpa [countReads] using this

/-- The line loop counts exactly the reads it emits. -/
theorem scanLines_eq_countReads (firstChar : GoString) (minLen maxLen : Int)
    (lines : List ByteSlice) :
    ∀ (st : CountState), (∀ l ∈ lines, ByteSlice.upTo1 l ≠ none) →
      ∃ st', scanLines firstChar minLen maxLen lines st = some st' ∧
        (st'.srnaMap, st'.totalCount) =
          countReads (emittedReads firstChar minLen maxLen lines st.seqNext)
            (st.srnaMap, st.totalCount) := by
  induction lines with
  | nil =>
    intro st _
    exact ⟨st, rfl, rfl⟩
  | cons l rest ih =>
    intro st hcap
    have hrest : ∀ l' ∈ rest, ByteSlice.upTo1 l' ≠ none :=
      fun l' h => hcap l' (List.mem_cons_of_mem _ h)
    cases hu : l.upTo1 with
    | none => exact absurd hu (hcap l (List.mem_cons_self _ _))
    | some head =>
      by_cases h1 : head = firstChar
      · obtain ⟨st', e1, e2⟩ := ih
          { srnaMap := st.srnaMap, totalCount := st.totalCount, seqNext := true } hrest
        exact ⟨st', by simp [scanLines, scanLine, hu, h1, e1],
          by simpa [emittedReads, hu, h1] using e2⟩
      · by_cases h2 : st.seqNext = true ∧ inBounds minLen maxLen l = true
        · obtain ⟨st', e1, e2⟩ := ih
            { srnaMap := st.srnaMap.set l.bytes ((st.srnaMap.get? l.bytes).getD 0 + 1),
              totalCount := st.totalCount + 1, seqNext := false }
            hrest
          refine ⟨st', by simp [scanLines, scanLine, hu, h1, h2, e1, addFullLengthRead_eq], ?_⟩
          rw [e2]
          simp [emittedReads, hu, h1, h2, countReads, addFullLengthRead_eq]
        · obtain ⟨st', e1, e2⟩ := ih st hrest
          exact ⟨st', by simp [scanLines, scanLine, hu, h1, h2, e1],
            by simpa [emittedReads, hu, h1, h2] using e2⟩

/-- Witness of C1 at the two example arrivals. -/
theorem compileCounts_columns_witness :
    ∃ table load_order,
      compileCounts (singleFileMaps exampleArrivals) (exampleArrivals.length : Int) 1
        = some (table, load_order) ∧
      load_order = exampleArrivals.map (fun p => pathBase p.1) ∧
      GoMap.WF table ∧
      (∀ s, s ∈ GoMap.keys table ↔ ∃ p ∈ exampleArrivals, s ∈ GoMap.keys p.2) ∧
      (∀ s, s ∈ GoMap.keys table →
        GoMap.get? table s = some (exampleArrivals.map (fun p => (GoMap.get? p.2 s).getD 0))) ∧
      (exampleArrivals = [] → table = [] ∧ load_order = []) :=
  compileCounts_columns exampleArrivals 1 (by decide) (le_refl 1)

/-! ## C2: count conservation -/

/-- C2: with `minCount <= 1` and `noNorm = true`, for a file whose name and
lines let `loadFastx` run through, the per-file map it sends holds, for every
sequence, the number of times the line loop emitted that exact line (and only
emitted lines are keys), so the sum of its counts, and the printed total, equal
the number of emitted reads. -/
theorem loadFastx_count_conservation (fileName : GoString) (content : Bool → List ByteSlice)
    (firstChar : GoString) (minLen maxLen : Int) (minCount : ℚ) (gz : Bool)
    (hgz : gzSuffix fileName = some gz)
    (hcap : ∀ l ∈ content gz, ByteSlice.upTo1 l ≠ none) (hmin : minCount ≤ 1) :
    ∃ srnaMap total,
      loadFastx fileName content firstChar minLen maxLen minCount true
        = some ([(fileName, srnaMap)], total) ∧
      GoMap.WF srnaMap ∧
      sumCounts srnaMap = ((emittedReads firstChar minLen maxLen (content gz) false).length : ℚ) ∧
      total = ((emittedReads firstChar minLen maxLen (content gz) false).length : ℚ) ∧
      (∀ s, s ∈ GoMap.keys srnaMap ↔ s ∈ emittedReads firstChar minLen maxLen (content gz) false) ∧
      (∀ s, (GoMap.get? srnaMap s).getD 0
        = ((emittedReads firstChar minLen maxLen (content gz) false).count s : ℚ)) := by
  obtain ⟨st, h1, h2⟩ := scanLines_eq_countReads firstChar minLen maxLen (content gz)
    { srnaMap := [], totalCount := 0, seqNext := false } hcap
  have inv := countReads_inv (emittedReads firstChar minLen maxLen (content gz) false) []
    ([], 0) countInv_nil
  simp only [List.nil_append] at inv
  rw [← h2] at inv
  have hnot : ¬ minCount > 1 := not_lt.mpr hmin
  refine ⟨st.srnaMap, st.totalCount, ?_, inv.wf, ?_, inv.total_eq, ?_, ?_⟩
  · simp [loadFastx, hgz, h1, removeReadsBelowMin, hnot]
  · rw [inv.sum_eq, inv.total_eq]
  · intro s
    rw [GoMap.mem_keys_iff, inv.get_eq s, ← List.count_pos_iff]
    by_cases h : List.count s (emittedReads firstChar minLen maxLen (content gz) false) = 0
    · simp [h]
    · simp [h, Nat.pos_of_ne_zero h]
  · intro s
    rw [inv.get_eq s]
    by_cases h : List.count s (emittedReads firstChar minLen maxLen (content gz) false) = 0 <;>
      simp [h]

/-- Witness of C2 at file 1 read as FASTA with bounds 5 and 15. -/
theorem loadFastx_count_conservation_witness :
    ∃ srnaMap total,
      loadFastx file1 (fun _ => lines1) [62] 5 15 1 true = some ([(file1, srnaMap)], total) ∧
      GoMap.WF srnaMap ∧
      sumCounts srnaMap = ((emittedReads [62] 5 15 lines1 false).length : ℚ) ∧
      total = ((emittedReads [62] 5 15 lines1 false).length : ℚ) ∧
      (∀ s, s ∈ GoMap.keys srnaMap ↔ s ∈ emittedReads [62] 5 15 lines1 false) ∧
      (∀ s, (GoMap.get? srnaMap s).getD 0 = ((emittedReads [62] 5 15 lines1 false).count s : ℚ)) :=
  loadFastx_count_conservation file1 (fun _ => lines1) [62] 5 15 1 false (by decide)
    (by decide) (le_refl 1)

/-! ## Closed forms of the loops of `rpmrNormalize` and `removeReadsBelowMin` -/

theorem GoMap.set_append_of_not_mem {β : Type} (pre rest : GoMap β) (k : GoString) (c v : β)
    (h : k ∉ GoMap.keys pre) :
    GoMap.set (pre ++ (k, c) :: rest) k v = pre ++ (k, v) :: rest := by
  induction pre with
  | nil => simp [GoMap.set]
  | cons e pre ih =>
    obtain ⟨a, b⟩ := e
    simp only [GoMap.keys, List.map_cons, List.mem_cons, not_or] at h
    have ha : ¬ a = k := fun e => h.1 e.symm
    have e := ih h.2
    simp only [List.cons_append, GoMap.set, ha, if_false]
    exact congrArg _ e

theorem GoMap.delete_of_not_mem {β : Type} (m : GoMap β) (k : GoString)
    (h : k ∉ GoMap.keys m) : GoMap.delete m k = m := by
  induction m with
  | nil => rfl
  | cons e m ih =>
    obtain ⟨a, b⟩ := e
    simp only [GoMap.keys, List.map_cons, List.mem_cons, not_or] at h
    have ha : ¬ a = k := fun e => h.1 e.symm
    simp only [GoMap.delete, ha, if_false]
    rw [ih h.2]

theorem GoMap.delete_append_of_not_mem {β : Type} (pre rest : GoMap β) (k : GoString) (c : β)
    (h1 : k ∉ GoMap.keys pre) (h2 : k ∉ GoMap.keys rest) :
    GoMap.delete (pre ++ (k, c) :: rest) k = pre ++ rest := by
  induction pre with
  | nil => simp [GoMap.delete, GoMap.delete_of_not_mem rest k h2]
  | cons e pre ih =>
    obtain ⟨a, b⟩ := e
    simp only [GoMap.keys, List.map_cons, List.mem_cons, not_or] at h1
    have ha : ¬ a = k := fun e => h1.1 e.symm
    have e := ih h1.2
    simp only [List.cons_append, GoMap.delete, ha, if_false]
    exact congrArg _ e

theorem rpmrLoop_eq (total : ℚ) (es : List (GoString × ℚ)) :
    ∀ (pre : GoMap ℚ), GoMap.WF (pre ++ es) →
      rpmrLoop total es (pre ++ es)
        = pre ++ es.map (fun e => (e.1, 1000000 * e.2 / total)) := by
  induction es with
  | nil => intro pre _; simp [rpmrLoop]
  | cons e rest ih =>
    obtain ⟨k, c⟩ := e
    intro pre hwf
    have hk : k ∉ GoMap.keys pre := by
      simp only [GoMap.WF, GoMap.keys, List.map_append, List.map_cons] at hwf
      have := (List.nodup_append.1 hwf).2.2
      intro hm
      exact this hm (List.mem_cons_self _ _)
    have hwf' : GoMap.WF ((pre ++ [(k, 1000000 * c / total)]) ++ rest) := by
      simpa [GoMap.WF, GoMap.keys] using hwf
    have := ih (pre ++ [(k, 1000000 * c / total)]) hwf'
    simp only [rpmrLoop, GoMap.set_append_of_not_mem pre rest k _ _ hk]
    simpa using this

/-- The closed form of `rpmrNormalize` on a well-formed map. -/
theorem rpmrNormalize_eq (m : GoMap ℚ) (total : ℚ) (hwf : GoMap.WF m) :
    rpmrNormalize m total = m.map (fun e => (e.1, 1000000 * e.2 / total)) := by
  have := rpmrLoop_eq total m [] (by simpa using hwf)
  simpa [rpmrNormalize] using this

theorem removeBelowLoop_eq (minCount : ℚ) (es : List (GoString × ℚ)) :
    ∀ (pre : GoMap ℚ) (t : ℚ), GoMap.WF (pre ++ es) →
      removeBelowLoop minCount es (pre ++ es) t
        = (pre ++ es.filter (fun e => decide (minCount ≤ e.2)),
           t - sumCounts (es.filter (fun e => decide (e.2 < minCount)))) := by
  induction es with
  | nil => intro pre t _; simp [removeBelowLoop, sumCounts]
  | cons e rest ih =>
    obtain ⟨k, c⟩ := e
    intro pre t hwf
    have hnd : (GoMap.keys pre ++ k :: GoMap.keys rest).Nodup := by
      simpa [GoMap.WF, GoMap.keys] using hwf
    have hk : k ∉ GoMap.keys pre := by
      have := (List.nodup_append.1 hnd).2.2
      intro hm
      exact this hm (List.mem_cons_self _ _)
    have hk2 : k ∉ GoMap.keys rest := (List.nodup_cons.1 (List.nodup_append.1 hnd).2.1).1
    by_cases hc : c < minCount
    · have hwf' : GoMap.WF (pre ++ rest) := by
        have : (GoMap.keys pre ++ GoMap.keys rest).Nodup :=
          List.Nodup.sublist (List.Sublist.append_left (List.sublist_cons_self _ _) _) hnd
        simpa [GoMap.WF, GoMap.keys] using this
      simp only [removeBelowLoop, hc, if_true,
        GoMap.delete_append_of_not_mem pre rest k c hk hk2, ih pre (t - c) hwf']
      simp only [List.filter_cons, hc, not_le.2 hc, decide_False, decide_True, if_true,
        sumCounts, List.map_cons, List.sum_cons, Prod.mk.injEq, true_and]
      simp
      ring
    · have hwf' : GoMap.WF ((pre ++ [(k, c)]) ++ rest) := by
        simpa [GoMap.WF, GoMap.keys] using hwf
      have := ih (pre ++ [(k, c)]) t hwf'
      simp only [List.append_assoc, List.singleton_append] at this
      simp only [removeBelowLoop, hc, if_false, this]
      simp [List.filter_cons, hc, not_lt.1 hc]

/-- The closed form of `removeReadsBelowMin` on a well-formed map. -/
theorem removeReadsBelowMin_eq (minCount : ℚ) (m : GoMap ℚ) (total : ℚ) (hwf : GoMap.WF m) :
    removeReadsBelowMin minCount m total =
      if minCount > 1 then
        (m.filter (fun e => decide (minCount ≤ e.2)),
         total - sumCounts (m.filter (fun e => decide (e.2 < minCount))))
      else (m, total) := by
  have := removeBelowLoop_eq minCount m [] total (by simpa using hwf)
  simp only [List.nil_append] at this
  simp only [removeReadsBelowMin, this]

theorem GoMap.get?_map_val {β γ : Type} (m : GoMap β) (f : β → γ) (s : GoString) :
    GoMap.get? (m.map (fun e => (e.1, f e.2))) s = (GoMap.get? m s).map f := by
  induction m with
  | nil => simp [GoMap.get?]
  | cons e m ih =>
    obtain ⟨a, b⟩ := e
    by_cases h : a = s <;> simp [GoMap.get?, h, ih]

theorem GoMap.keys_map_val {β γ : Type} (m : GoMap β) (f : β → γ) :
    GoMap.keys (m.map (fun e => (e.1, f e.2))) = GoMap.keys m := by
  simp [GoMap.keys, List.map_map, Function.comp_def]

theorem GoMap.keys_filter_sublist {β : Type} (m : GoMap β) (q : GoString × β → Bool) :
    (GoMap.keys (m.filter q)).Sublist (GoMap.keys m) :=
  List.Sublist.map _ (List.filter_sublist m)

theorem GoMap.get?_filter {β : Type} (m : GoMap β) (q : GoString × β → Bool) (s : GoString)
    (hwf : GoMap.WF m) :
    GoMap.get? (m.filter q) s
      = (GoMap.get? m s).bind (fun v => if q (s, v) = true then some v else none) := by
  induction m with
  | nil => simp [GoMap.get?]
  | cons e m ih =>
    obtain ⟨a, b⟩ := e
    have hnd : a ∉ GoMap.keys m ∧ GoMap.WF m := by
      simpa [GoMap.WF, GoMap.keys] using hwf
    by_cases h : a = s
    · subst h
      by_cases hq : q (a, b) = true
      · simp [GoMap.get?, List.filter_cons, hq]
      · have hn : a ∉ GoMap.keys (m.filter q) :=
          fun hm => hnd.1 ((GoMap.keys_filter_sublist m q).subset hm)
        simp [GoMap.get?, List.filter_cons, hq, (GoMap.get?_eq_none_iff _ a).2 hn]
    · by_cases hq : q (a, b) = true
      · simp [GoMap.get?, List.filter_cons, hq, h, ih hnd.2]
      · simp [GoMap.get?, List.filter_cons, hq, h, ih hnd.2]

theorem GoMap.get?_of_mem {β : Type} (m : GoMap β) (e : GoString × β) (hwf : GoMap.WF m)
    (he : e ∈ m) : GoMap.get? m e.1 = some e.2 := by
  induction m with
  | nil => cases he
  | cons x m ih =>
    obtain ⟨a, b⟩ := x
    have hnd : a ∉ GoMap.keys m ∧ GoMap.WF m := by
      simpa [GoMap.WF, GoMap.keys] using hwf
    rcases List.mem_cons.1 he with h | h
    · subst h
      simp [GoMap.get?]
    · have hne : ¬ a = e.1 := by
        intro ha
        exact hnd.1 (ha ▸ List.mem_map_of_mem Prod.fst h)
      simp [GoMap.get?, hne, ih hnd.2 h]

theorem GoMap.mem_of_get? {β : Type} (m : GoMap β) (s : GoString) (v : β)
    (h : GoMap.get? m s = some v) : (s, v) ∈ m := by
  induction m with
  | nil => simp [GoMap.get?] at h
  | cons x m ih =>
    obtain ⟨a, b⟩ := x
    by_cases ha : a = s
    · simp only [GoMap.get?, ha, if_true, Option.some.injEq] at h
      simp [ha, h]
    · simp only [GoMap.get?, ha, if_false] at h
      exact List.mem_cons_of_mem _ (ih h)

theorem sumCounts_map_scale (m : GoMap ℚ) (a total : ℚ) :
    sumCounts (m.map (fun e => (e.1, a * e.2 / total))) = a * sumCounts m / total := by
  induction m with
  | nil => simp [sumCounts]
  | cons e m ih =>
    simp only [sumCounts, List.map_cons, List.sum_cons] at ih ⊢
    rw [ih]
    ring

/-! ## C3: normalisation to reads per million -/

/-- C3: for a well-formed per-file map and a total that is positive and equal
to the sum of its counts, `rpmrNormalize` keeps the key set, replaces every
count by `1000000 * count / total`, and the new counts sum to exactly
`1000000`. -/
theorem rpmrNormalize_sum (m : GoMap ℚ) (total : ℚ) (hwf : GoMap.WF m) (hpos : 0 < total)
    (hsum : total = sumCounts m) :
    GoMap.keys (rpmrNormalize m total) = GoMap.keys m ∧
    (∀ s, GoMap.get? (rpmrNormalize m total) s
      = (GoMap.get? m s).map (fun c => 1000000 * c / total)) ∧
    sumCounts (rpmrNormalize m total) = 1000000 := by
  rw [rpmrNormalize_eq m total hwf]
  refine ⟨GoMap.keys_map_val m (fun c => 1000000 * c / total), fun s => GoMap.get?_map_val m (fun c => 1000000 * c / total) s, ?_⟩
  rw [sumCounts_map_scale, ← hsum]
  field_simp

/-- Witness of C3 at a map of counts 3 and 1 with total 4. -/
theorem rpmrNormalize_sum_witness :
    GoMap.keys (rpmrNormalize [(readACGTACGTAC, 3), (readTTTTTTTT, 1)] 4)
      = GoMap.keys [(readACGTACGTAC, (3 : ℚ)), (readTTTTTTTT, 1)] ∧
    (∀ s, GoMap.get? (rpmrNormalize [(readACGTACGTAC, 3), (readTTTTTTTT, 1)] 4) s
      = (GoMap.get? [(readACGTACGTAC, (3 : ℚ)), (readTTTTTTTT, 1)] s).map
          (fun c => 1000000 * c / 4)) ∧
    sumCounts (rpmrNormalize [(readACGTACGTAC, 3), (readTTTTTTTT, 1)] 4) = 1000000 :=
  rpmrNormalize_sum [(readACGTACGTAC, 3), (readTTTTTTTT, 1)] 4 (by decide) (by norm_num)
    (by norm_num [sumCounts])

/-! ## C4: the per-file minimum-count filter -/

/-- C4: on a well-formed per-file map whose counts are all at least 1, after
`removeReadsBelowMin` every retained sequence has its pre-filter count, which
is not below `minCount`; every sequence whose pre-filter count is at least
`minCount` is retained with that count; and the returned total is the input
total minus the sum of the counts of the sequences that were removed. -/
theorem removeReadsBelowMin_spec (minCount : ℚ) (m : GoMap ℚ) (total : ℚ)
    (hwf : GoMap.WF m) (hone : ∀ e ∈ m, 1 ≤ e.2) :
    (∀ s c, GoMap.get? (removeReadsBelowMin minCount m total).1 s = some c →
      GoMap.get? m s = some c ∧ ¬ c < minCount) ∧
    (∀ s c, GoMap.get? m s = some c → minCount ≤ c →
      GoMap.get? (removeReadsBelowMin minCount m total).1 s = some c) ∧
    (removeReadsBelowMin minCount m total).2
      = total - sumCounts
          (m.filter (fun e => decide (e.1 ∉ GoMap.keys (removeReadsBelowMin minCount m total).1))) := by
  rw [removeReadsBelowMin_eq minCount m total hwf]
  by_cases hmin : minCount > 1
  · simp only [hmin, if_true]
    have hget : ∀ s, GoMap.get? (m.filter (fun e => decide (minCount ≤ e.2))) s
        = (GoMap.get? m s).bind (fun v => if decide (minCount ≤ v) = true then some v else none) :=
      fun s => GoMap.get?_filter m _ s hwf
    refine ⟨?_, ?_, ?_⟩
    · intro s c hc
      rw [hget s] at hc
      cases hg : GoMap.get? m s with
      | none => simp [hg] at hc
      | some v =>
        by_cases hv : v < minCount
        · simp [hg, not_le.2 hv] at hc
        · simp only [hg, Option.some_bind, not_lt.1 hv, decide_True, if_true,
            Option.some.injEq] at hc
          exact ⟨by rw [hc], hc ▸ hv⟩
    · intro s c hc hle
      rw [hget s, hc]
      simp [hle]
    · congr 2
      apply List.filter_congr
      intro e he
      have hge : GoMap.get? m e.1 = some e.2 := GoMap.get?_of_mem m e hwf he
      by_cases hv : e.2 < minCount
      · have : e.1 ∉ GoMap.keys (m.filter (fun e => decide (minCount ≤ e.2))) := by
          rw [← GoMap.get?_eq_none_iff, hget, hge]
          simp [hv]
        simp only [hv, this, not_false_eq_true, decide_True]
      · have : e.1 ∈ GoMap.keys (m.filter (fun e => decide (minCount ≤ e.2))) := by
          rw [GoMap.mem_keys_iff, hget, hge]
          exact ⟨e.2, by simp [not_lt.1 hv]⟩
        simp only [hv, this, not_true_eq_false, decide_False]
  · simp only [hmin, if_false]
    refine ⟨?_, fun s c hc _ => hc, ?_⟩
    · intro s c hc
      refine ⟨hc, ?_⟩
      have h1 : 1 ≤ c := hone (s, c) (GoMap.mem_of_get? m s c hc)
      exact not_lt.2 (le_trans (not_lt.1 hmin) h1)
    · have : m.filter (fun e => decide (e.1 ∉ GoMap.keys m)) = [] := by
        rw [List.filter_eq_nil_iff]
        intro e he
        have : e.1 ∈ GoMap.keys m := List.mem_map_of_mem Prod.fst he
        simp [this]
      rw [this]
      simp [sumCounts]

/-- Witness of C4 at counts 3 and 1 with `minCount = 2`. -/
theorem removeReadsBelowMin_spec_witness :
    (∀ s c, GoMap.get? (removeReadsBelowMin 2 [(readACGTACGTAC, 3), (readTTTTTTTT, 1)] 4).1 s
        = some c →
      GoMap.get? [(readACGTACGTAC, (3 : ℚ)), (readTTTTTTTT, 1)] s = some c ∧ ¬ c < 2) ∧
    (∀ s c, GoMap.get? [(readACGTACGTAC, (3 : ℚ)), (readTTTTTTTT, 1)] s = some c → 2 ≤ c →
      GoMap.get? (removeReadsBelowMin 2 [(readACGTACGTAC, 3), (readTTTTTTTT, 1)] 4).1 s
        = some c) ∧
    (removeReadsBelowMin 2 [(readACGTACGTAC, 3), (readTTTTTTTT, 1)] 4).2
      = 4 - sumCounts
          (List.filter
            (fun e => decide (e.1 ∉ GoMap.keys
              (removeReadsBelowMin 2 [(readACGTACGTAC, 3), (readTTTTTTTT, 1)] 4).1))
            [(readACGTACGTAC, (3 : ℚ)), (readTTTTTTTT, 1)]) :=
  removeReadsBelowMin_spec 2 [(readACGTACGTAC, 3), (readTTTTTTTT, 1)] 4 (by decide)
    (by simp)

/-! ## The completeness filter `removeUnderMinCount` -/

theorem removeIfZero_get? (srna : GoString) (counts : List ℚ) :
    ∀ (table : GoMap (List ℚ)) (s : GoString),
      GoMap.get? (removeIfZero srna counts table) s
        = if srna = s ∧ (0 : ℚ) ∈ counts then none else GoMap.get? table s := by
  induction counts with
  | nil => intro table s; simp [removeIfZero]
  | cons i rest ih =>
    intro table s
    by_cases hi : i = 0
    · subst hi
      simp only [removeIfZero, if_true, ih, GoMap.get?_delete]
      by_cases hs : srna = s <;> simp [hs]
    · have hi' : ¬ (0 : ℚ) = i := fun e => hi e.symm
      simp only [removeIfZero, hi, if_false, ih, List.mem_cons, hi', false_or]

theorem removeUnderMinCountLoop_get? (ks : List GoString) :
    ∀ (table : GoMap (List ℚ)) (s : GoString),
      GoMap.get? (removeUnderMinCountLoop ks table) s
        = (GoMap.get? table s).bind
            (fun v => if s ∈ ks ∧ (0 : ℚ) ∈ v then none else some v) := by
  induction ks with
  | nil =>
    intro table s
    cases hg : GoMap.get? table s <;> simp [removeUnderMinCountLoop, hg]
  | cons k rest ih =>
    intro table s
    cases hk : GoMap.get? table k with
    | none =>
      simp only [removeUnderMinCountLoop, hk, ih]
      by_cases hs : s = k
      · subst hs
        simp [hk]
      · simp [hs]
    | some counts =>
      simp only [removeUnderMinCountLoop, hk, ih, removeIfZero_get?]
      by_cases hs : k = s
      · subst hs
        by_cases hz : (0 : ℚ) ∈ counts <;> simp [hk, hz]
      · have hs' : ¬ s = k := fun e => hs e.symm
        simp [hs, hs']

/-- The effect of `removeUnderMinCount` on lookups. -/
theorem removeUnderMinCount_get? (table : GoMap (List ℚ)) (s : GoString) :
    GoMap.get? (removeUnderMinCount table) s
      = (GoMap.get? table s).bind (fun v => if (0 : ℚ) ∈ v then none else some v) := by
  rw [removeUnderMinCount, removeUnderMinCountLoop_get?]
  cases hg : GoMap.get? table s with
  | none => rfl
  | some v =>
    have : s ∈ GoMap.keys table := (GoMap.mem_keys_iff table s).2 ⟨v, hg⟩
    simp [this]

/-! ## C7: vector lengths and column indices -/

theorem mergeSeqMap_vecs (no_of_files : Int) (pos : Nat) (hN : 0 ≤ no_of_files)
    (hpos : pos < no_of_files.toNat) (seqMap : GoMap ℚ) :
    ∀ (table : GoMap (List ℚ)), Vecs no_of_files.toNat table →
      ∃ table', mergeSeqMap no_of_files pos seqMap table = some table' ∧
        Vecs no_of_files.toNat table' := by
  induction seqMap with
  | nil => intro table h; exact ⟨table, rfl, h⟩
  | cons e rest ih =>
    obtain ⟨k, c⟩ := e
    intro table hlen
    have hstep := mergeCount_eq no_of_files pos table k c hN hpos hlen
    obtain ⟨table', h1, h2⟩ := ih _ (Vecs_set hlen k
      ((vecOf no_of_files.toNat table k).set pos c) (by simp [vecOf_length hlen]))
    exact ⟨table', by simp only [mergeSeqMap, hstep, h1], h2⟩

theorem mergeAll_vecs (no_of_files : Int) (hN : 0 ≤ no_of_files)
    (rest : List (GoString × GoMap ℚ)) :
    ∀ (st : MergeState), st.pos + rest.length ≤ no_of_files.toNat →
      Vecs no_of_files.toNat st.table →
      ∃ st', mergeAll no_of_files (singleFileMaps rest) st = some st' ∧
        Vecs no_of_files.toNat st'.table ∧ st'.pos = st.pos + rest.length ∧
        st'.load_order.length = st.load_order.length + rest.length := by
  induction rest with
  | nil => intro st _ h; exact ⟨st, rfl, h, rfl, rfl⟩
  | cons p rest ih =>
    intro st hle hlen
    simp only [List.length_cons] at hle
    obtain ⟨table', h1, h2⟩ := mergeSeqMap_vecs no_of_files st.pos hN (by omega) p.2 st.table hlen
    obtain ⟨st', e1, e2, e3, e4⟩ := ih
      { table := table', load_order := st.load_order ++ [pathBase p.1], pos := st.pos + 1 }
      (by simp only []; omega) h2
    refine ⟨st', ?_, e2, ?_, ?_⟩
    · simp only [singleFileMaps, List.map_cons, mergeAll, mergeSingle, h1]
      exact e1
    · simp only [e3, List.length_cons]; omega
    · simp only [e4, List.length_cons, List.length_append, List.length_nil]; omega

/-- C7: when at most `no_of_files` single-file maps arrive, `compileCounts`
returns without panic for every `min_count` (no indexed store `a[pos] = count`
of the merge is out of range: the columns written are those below the number
of arrivals, which is at most `no_of_files`), and every vector of the returned
table has length exactly `no_of_files`. -/
theorem compileCounts_vector_length (arrivals : List (GoString × GoMap ℚ)) (no_of_files : Int)
    (min_count : ℚ) (hle : (arrivals.length : Int) ≤ no_of_files) :
    ∃ table load_order,
      compileCounts (singleFileMaps arrivals) no_of_files min_count = some (table, load_order) ∧
      load_order.length = arrivals.length ∧
      (∀ i, i < load_order.length → (i : Int) < no_of_files) ∧
      (∀ s v, GoMap.get? table s = some v → (v.length : Int) = no_of_files) := by
  have hN : 0 ≤ no_of_files := le_trans (Int.natCast_nonneg _) hle
  have hlen : arrivals.length ≤ no_of_files.toNat := by omega
  obtain ⟨st, h1, h2, _, h4⟩ := mergeAll_vecs no_of_files hN arrivals
    { table := [], load_order := [], pos := 0 } (by simpa using hlen)
    (fun s v hv => by simp [GoMap.get?] at hv)
  have hcast : ((no_of_files.toNat : Nat) : Int) = no_of_files := Int.toNat_of_nonneg hN
  have hidx : ∀ i, i < st.load_order.length → (i : Int) < no_of_files := by
    intro i hi
    simp only [h4, List.length_nil, Nat.zero_add] at hi
    omega
  by_cases hmin : min_count > 1
  · refine ⟨removeUnderMinCount st.table, st.load_order, by simp [compileCounts, h1, hmin],
      by simpa using h4, hidx, ?_⟩
    intro s v hv
    rw [removeUnderMinCount_get?] at hv
    cases hg : GoMap.get? st.table s with
    | none => simp [hg] at hv
    | some w =>
      by_cases hz : (0 : ℚ) ∈ w
      · simp [hg, hz] at hv
      · simp only [hg, Option.some_bind, hz, if_false, Option.some.injEq] at hv
        rw [← hv, h2 s w hg, hcast]
  · refine ⟨st.table, st.load_order, by simp [compileCounts, h1, hmin], by simpa using h4,
      hidx, ?_⟩
    intro s v hv
    rw [h2 s v hv, hcast]

/-- Witness of C7 at the two example arrivals with three columns. -/
theorem compileCounts_vector_length_witness :
    ∃ table load_order,
      compileCounts (singleFileMaps exampleArrivals) 3 2 = some (table, load_order) ∧
      load_order.length = exampleArrivals.length ∧
      (∀ i, i < load_order.length → (i : Int) < 3) ∧
      (∀ s v, GoMap.get? table s = some v → (v.length : Int) = 3) :=
  compileCounts_vector_length exampleArrivals 3 2 (by decide)

/-! ## C5: what the completeness filter keeps -/

/-- C5: when at most `no_of_files` single-file maps arrive, the merge ends
without panic in a state `st`, and for `min_count > 1` the table `compileCounts`
returns holds no sequence whose vector has a `0` entry, holds every sequence of
the merged table whose vector has no `0` entry, and holds only vectors of the
merged table, unchanged; for `min_count <= 1` it is the merged table itself. -/
theorem compileCounts_completeness (arrivals : List (GoString × GoMap ℚ)) (no_of_files : Int)
    (min_count : ℚ) (hle : (arrivals.length : Int) ≤ no_of_files) :
    ∃ st, mergeAll no_of_files (singleFileMaps arrivals)
        { table := [], load_order := [], pos := 0 } = some st ∧
      (min_count > 1 → ∃ table,
        compileCounts (singleFileMaps arrivals) no_of_files min_count
          = some (table, st.load_order) ∧
        (∀ s v, GoMap.get? table s = some v → (0 : ℚ) ∉ v) ∧
        (∀ s v, GoMap.get? st.table s = some v → (0 : ℚ) ∉ v → GoMap.get? table s = some v) ∧
        (∀ s v, GoMap.get? table s = some v → GoMap.get? st.table s = some v)) ∧
      (min_count ≤ 1 →
        compileCounts (singleFileMaps arrivals) no_of_files min_count
          = some (st.table, st.load_order)) := by
  have hN : 0 ≤ no_of_files := le_trans (Int.natCast_nonneg _) hle
  have hlen : arrivals.length ≤ no_of_files.toNat := by omega
  obtain ⟨st, hmerge, _⟩ := mergeAll_vecs no_of_files hN arrivals
    { table := [], load_order := [], pos := 0 } (by simpa using hlen)
    (fun s v hv => by simp [GoMap.get?] at hv)
  refine ⟨st, hmerge, ?_, ?_⟩
  · intro hmin
    refine ⟨removeUnderMinCount st.table, by simp [compileCounts, hmerge, hmin], ?_, ?_, ?_⟩
    · intro s v hv
      rw [removeUnderMinCount_get?] at hv
      cases hg : GoMap.get? st.table s with
      | none => simp [hg] at hv
      | some w =>
        by_cases hz : (0 : ℚ) ∈ w
        · simp [hg, hz] at hv
        · simp only [hg, Option.some_bind, hz, if_false, Option.some.injEq] at hv
          exact hv ▸ hz
    · intro s v hv hz
      rw [removeUnderMinCount_get?, hv]
      simp [hz]
    · intro s v hv
      rw [removeUnderMinCount_get?] at hv
      cases hg : GoMap.get? st.table s with
      | none => simp [hg] at hv
      | some w =>
        by_cases hz : (0 : ℚ) ∈ w
        · simp [hg, hz] at hv
        · simp only [hg, Option.some_bind, hz, if_false, Option.some.injEq] at hv
          rw [hv]
  · intro hmin
    have : ¬ min_count > 1 := not_lt.mpr hmin
    simp [compileCounts, hmerge, this]

/-- Witness of C5 at the two example arrivals. -/
theorem compileCounts_completeness_witness :
    ∃ st, mergeAll 2 (singleFileMaps exampleArrivals) { table := [], load_order := [], pos := 0 }
        = some st ∧
      ((2 : ℚ) > 1 → ∃ table,
        compileCounts (singleFileMaps exampleArrivals) 2 2 = some (table, st.load_order) ∧
        (∀ s v, GoMap.get? table s = some v → (0 : ℚ) ∉ v) ∧
        (∀ s v, GoMap.get? st.table s = some v → (0 : ℚ) ∉ v → GoMap.get? table s = some v) ∧
        (∀ s v, GoMap.get? table s = some v → GoMap.get? st.table s = some v)) ∧
      ((2 : ℚ) ≤ 1 →
        compileCounts (singleFileMaps exampleArrivals) 2 2 = some (st.table, st.load_order)) :=
  compileCounts_completeness exampleArrivals 2 2 (by decide)

/-! ## C8: the reads emitted by the line loop -/

theorem emittedReads_marker (firstChar : GoString) (minLen maxLen : Int) (l : ByteSlice)
    (rest : List ByteSlice) (b : Bool) (h : isMarkerLine firstChar l = true) :
    emittedReads firstChar minLen maxLen (l :: rest) b
      = emittedReads firstChar minLen maxLen rest true := by
  have hu : l.upTo1 = some firstChar := by simpa [isMarkerLine] using h
  simp [emittedReads, hu]

theorem emittedReads_plain (firstChar : GoString) (minLen maxLen : Int) (l : ByteSlice)
    (rest : List ByteSlice) (b : Bool) (h : isPlainLine firstChar l = true) :
    emittedReads firstChar minLen maxLen (l :: rest) b
      = if b = true ∧ inBounds minLen maxLen l = true then
          l.bytes :: emittedReads firstChar minLen maxLen rest false
        else emittedReads firstChar minLen maxLen rest b := by
  cases hu : l.upTo1 with
  | none => simp [isPlainLine, hu] at h
  | some head =>
    have hne : ¬ head = firstChar := by simpa [isPlainLine, hu] using h
    simp [emittedReads, hu, hne]

theorem emittedReads_plain_prefix (firstChar : GoString) (minLen maxLen : Int)
    (pre rest : List ByteSlice) (h : ∀ l ∈ pre, isPlainLine firstChar l = true) :
    emittedReads firstChar minLen maxLen (pre ++ rest) false
      = emittedReads firstChar minLen maxLen rest false := by
  induction pre with
  | nil => rfl
  | cons l pre ih =>
    have hl := h l (List.mem_cons_self _ _)
    have hpre := fun l' hl' => h l' (List.mem_cons_of_mem _ hl')
    simp [emittedReads_plain firstChar minLen maxLen l _ false hl, ih hpre]

theorem emittedReads_segment (firstChar : GoString) (minLen maxLen : Int)
    (seg rest : List ByteSlice) (h : ∀ l ∈ seg, isPlainLine firstChar l = true) :
    emittedReads firstChar minLen maxLen (seg ++ rest) true
      = ((seg.find? (inBounds minLen maxLen)).map ByteSlice.bytes).toList
        ++ emittedReads firstChar minLen maxLen rest (seg.find? (inBounds minLen maxLen)).isNone := by
  induction seg with
  | nil => simp
  | cons l seg ih =>
    have hl := h l (List.mem_cons_self _ _)
    have hseg := fun l' hl' => h l' (List.mem_cons_of_mem _ hl')
    rw [List.cons_append, emittedReads_plain firstChar minLen maxLen l _ true hl]
    by_cases hb : inBounds minLen maxLen l = true
    · simp [hb, List.find?_cons, emittedReads_plain_prefix firstChar minLen maxLen seg rest hseg]
    · simp [hb, List.find?_cons, ih hseg]

theorem emittedReads_no_marker (firstChar : GoString) (minLen maxLen : Int)
    (lines : List ByteSlice) (h : ∀ l ∈ lines, isMarkerLine firstChar l = false) :
    emittedReads firstChar minLen maxLen lines false = [] := by
  induction lines with
  | nil => rfl
  | cons l rest ih =>
    have hl := h l (List.mem_cons_self _ _)
    have hrest := fun l' hl' => h l' (List.mem_cons_of_mem _ hl')
    cases hu : l.upTo1 with
    | none => simp [emittedReads, hu]
    | some head =>
      have hne : ¬ head = firstChar := by simpa [isMarkerLine, hu] using hl
      simp [emittedReads, hu, hne, ih hrest]

theorem emittedReads_mem (c : UInt8) (minLen maxLen : Int) (lines : List ByteSlice) :
    ∀ (b : Bool), ∀ r ∈ emittedReads [c] minLen maxLen lines b,
      r.head? ≠ some c ∧ minLen ≤ (r.length : Int) ∧ (r.length : Int) ≤ maxLen := by
  induction lines with
  | nil => intro b r hr; simp [emittedReads] at hr
  | cons l rest ih =>
    intro b r hr
    cases hu : l.upTo1 with
    | none => simp [emittedReads, hu] at hr
    | some head =>
      by_cases h1 : head = [c]
      · simp only [emittedReads, hu, h1, if_true] at hr
        exact ih true r hr
      · by_cases h2 : b = true ∧ inBounds minLen maxLen l = true
        · simp only [emittedReads, hu, h1, h2, if_false, and_self, if_true, List.mem_cons] at hr
          rcases hr with hr | hr
          · subst hr
            refine ⟨?_, ?_⟩
            · intro hh
              apply h1
              cases hb : l.bytes with
              | nil => simp [hb] at hh
              | cons x xs =>
                simp only [hb, List.head?_cons, Option.some.injEq] at hh
                simp only [ByteSlice.upTo1, hb, List.cons_append, Option.some.injEq] at hu
                rw [← hu, hh]
            · simpa [inBounds] using h2.2
          · exact ih false r hr
        · simp only [emittedReads, hu, h1, h2, if_false] at hr
          exact ih b r hr

theorem emittedReads_length_le (firstChar : GoString) (minLen maxLen : Int)
    (lines : List ByteSlice) :
    ∀ (b : Bool), (emittedReads firstChar minLen maxLen lines b).length
      ≤ (if b = true then 1 else 0) + markerCount firstChar lines := by
  induction lines with
  | nil => intro b; simp [emittedReads]
  | cons l rest ih =>
    intro b
    cases hu : l.upTo1 with
    | none => simp [emittedReads, hu]
    | some head =>
      by_cases h1 : head = firstChar
      · have hm : isMarkerLine firstChar l = true := by simp [isMarkerLine, hu, h1]
        have := ih true
        simp only [emittedReads, hu, h1, if_true, markerCount, List.countP_cons, hm] at this ⊢
        omega
      · have hm : ¬ isMarkerLine firstChar l = true := by simp [isMarkerLine, hu, h1]
        by_cases h2 : b = true ∧ inBounds minLen maxLen l = true
        · have := ih false
          simp only [emittedReads, hu, h1, h2, if_false, and_self, if_true, markerCount,
            List.countP_cons, hm, List.length_cons] at this ⊢
          simp only [Bool.false_eq_true, if_false] at this
          omega
        · have := ih b
          simp only [emittedReads, hu, h1, h2, if_false, markerCount, List.countP_cons, hm]
            at this ⊢
          omega

theorem emittedReads_append_marker (firstChar : GoString) (minLen maxLen : Int)
    (m : ByteSlice) (tail : List ByteSlice) (hm : isMarkerLine firstChar m = true)
    (pre : List ByteSlice) :
    ∀ (b : Bool), (∀ l ∈ pre, ByteSlice.upTo1 l ≠ none) →
      emittedReads firstChar minLen maxLen (pre ++ m :: tail) b
        = emittedReads firstChar minLen maxLen pre b
          ++ emittedReads firstChar minLen maxLen tail true := by
  induction pre with
  | nil =>
    intro b _
    rw [List.nil_append, emittedReads_marker firstChar minLen maxLen m tail b hm]
    simp [emittedReads]
  | cons l pre ih =>
    intro b hcap
    have hpre := fun l' hl' => hcap l' (List.mem_cons_of_mem _ hl')
    cases hu : l.upTo1 with
    | none => exact absurd hu (hcap l (List.mem_cons_self _ _))
    | some head =>
      by_cases h1 : head = firstChar
      · simp [emittedReads, hu, h1, ih true hpre]
      · by_cases h2 : b = true ∧ inBounds minLen maxLen l = true
        · simp [emittedReads, hu, h1, h2, ih false hpre]
        · have e := ih b hpre
          simp only [List.cons_append, emittedReads, hu, h1, h2, if_false]
          exact e

/-- C8: for every list of lines, marker byte `c` and bounds, every read the
line loop emits does not start with `c` and has its length within
`[minLen, maxLen]`; an input without marker line emits nothing and the
non-marker lines before the first marker line add nothing to the emitted reads;
the emitted reads are at most as many as the marker lines; and the non-marker
lines `seg` that follow a marker line, up to the next marker line, emit at most
one read, the first of them whose length is within the bounds. -/
theorem emittedReads_spec (c : UInt8) (minLen maxLen : Int) (lines : List ByteSlice) :
    (∀ r ∈ emittedReads [c] minLen maxLen lines false,
      r.head? ≠ some c ∧ minLen ≤ (r.length : Int) ∧ (r.length : Int) ≤ maxLen) ∧
    ((∀ l ∈ lines, isMarkerLine [c] l = false) →
      emittedReads [c] minLen maxLen lines false = []) ∧
    (∀ pre rest, lines = pre ++ rest → (∀ l ∈ pre, isPlainLine [c] l = true) →
      emittedReads [c] minLen maxLen lines false = emittedReads [c] minLen maxLen rest false) ∧
    (emittedReads [c] minLen maxLen lines false).length ≤ markerCount [c] lines ∧
    (∀ pre m seg rest, lines = pre ++ m :: (seg ++ rest) →
      (∀ l ∈ pre, ByteSlice.upTo1 l ≠ none) → isMarkerLine [c] m = true →
      (∀ l ∈ seg, isPlainLine [c] l = true) →
      emittedReads [c] minLen maxLen lines false
        = emittedReads [c] minLen maxLen pre false
          ++ ((seg.find? (inBounds minLen maxLen)).map ByteSlice.bytes).toList
          ++ emittedReads [c] minLen maxLen rest
              (seg.find? (inBounds minLen maxLen)).isNone) := by
  refine ⟨emittedReads_mem c minLen maxLen lines false,
    emittedReads_no_marker [c] minLen maxLen lines, ?_, ?_, ?_⟩
  · intro pre rest hl hpre
    rw [hl]
    exact emittedReads_plain_prefix [c] minLen maxLen pre rest hpre
  · simpa using emittedReads_length_le [c] minLen maxLen lines false
  · intro pre m seg rest hl hcap hm hseg
    rw [hl, emittedReads_append_marker [c] minLen maxLen m _ hm pre false hcap,
      emittedReads_segment [c] minLen maxLen seg rest hseg, List.append_assoc]

/-! ## C9 and C10: `reverseComplement` on the alphabet `A`, `C`, `G`, `T`, `N` -/

theorem decodeRunesAux_ascii (s : GoString) :
    ∀ (fuel : Nat), s.length ≤ fuel → (∀ b ∈ s, b < 0x80) →
      decodeRunesAux fuel s = s.map UInt8.toNat := by
  induction s with
  | nil => intro fuel _ _; cases fuel <;> simp [decodeRunesAux]
  | cons b rest ih =>
    intro fuel hlen hb
    cases fuel with
    | zero => simp at hlen
    | succ fuel =>
      have h0 : b < 0x80 := hb b (List.mem_cons_self _ _)
      have hr := ih fuel (by simpa using hlen) (fun x hx => hb x (List.mem_cons_of_mem _ hx))
      simp [decodeRunesAux, h0, hr]

theorem reverseComplementLoop_eq (runes : List Nat) :
    ∀ (n : Nat) (result : GoString), n ≤ runes.length →
      reverseComplementLoop runes n result
        = some (result
            ++ ((runes.take n).reverse.map (fun r => encodeRune (runeMapGet complement r))).flatten) := by
  intro n
  induction n with
  | zero => intro result _; simp [reverseComplementLoop]
  | succ i ih =>
    intro result hle
    have hi : i < runes.length := hle
    have hget : runes[i]? = some runes[i] := List.getElem?_eq_getElem hi
    simp only [reverseComplementLoop, hget, ih _ (le_of_lt hi)]
    rw [List.take_succ, hget]
    simp only [Option.toList_some, List.reverse_append, List.reverse_cons, List.reverse_nil,
      List.nil_append, List.singleton_append, List.map_cons, List.flatten_cons,
      List.append_assoc]

theorem complement_base (b : UInt8) (hb : b ∈ bases) :
    encodeRune (runeMapGet complement b.toNat) = [specComplement b] := by
  simp only [bases, List.mem_cons, List.mem_singleton, List.not_mem_nil, or_false] at hb
  rcases hb with h | h | h | h | h <;> subst h <;> decide

theorem specComplement_mem (b : UInt8) (hb : b ∈ bases) : specComplement b ∈ bases := by
  simp only [bases, List.mem_cons, List.mem_singleton, List.not_mem_nil, or_false] at hb
  rcases hb with h | h | h | h | h <;> subst h <;> decide

theorem specComplement_involutive (b : UInt8) (hb : b ∈ bases) :
    specComplement (specComplement b) = b := by
  simp only [bases, List.mem_cons, List.mem_singleton, List.not_mem_nil, or_false] at hb
  rcases hb with h | h | h | h | h <;> subst h <;> decide

theorem base_lt (b : UInt8) (hb : b ∈ bases) : b < 0x80 := by
  simp only [bases, List.mem_cons, List.mem_singleton, List.not_mem_nil, or_false] at hb
  rcases hb with h | h | h | h | h <;> subst h <;> decide

theorem join_map_singleton (l : GoString) (f : UInt8 → GoString) (g : UInt8 → UInt8)
    (h : ∀ b ∈ l, f b = [g b]) : (l.map f).flatten = l.map g := by
  induction l with
  | nil => rfl
  | cons b rest ih =>
    simp [h b (List.mem_cons_self _ _), ih (fun x hx => h x (List.mem_cons_of_mem _ hx))]

/-- On a string over the alphabet, `reverseComplement` returns the reversal with
every base complemented. -/
theorem reverseComplement_bases (s : GoString) (hs : ∀ b ∈ s, b ∈ bases) :
    reverseComplement s = some (s.reverse.map specComplement) := by
  have hdec : decodeRunes s = s.map UInt8.toNat :=
    decodeRunesAux_ascii s s.length (le_refl _) (fun b hb => base_lt b (hs b hb))
  rw [reverseComplement, hdec, reverseComplementLoop_eq (s.map UInt8.toNat) _ [] (le_refl _)]
  simp only [List.nil_append, List.take_length, ← List.map_reverse, List.map_map]
  rw [join_map_singleton s.reverse _ specComplement]
  intro b hb
  exact complement_base b (hs b (List.mem_reverse.1 hb))

/-- C9: on a string over the alphabet `A`, `C`, `G`, `T`, `N`, applying
`reverseComplement` twice returns the string. -/
theorem reverseComplement_involution (s : GoString) (hs : ∀ b ∈ s, b ∈ bases) :
    (reverseComplement s).bind reverseComplement = some s := by
  rw [reverseComplement_bases s hs, Option.some_bind, reverseComplement_bases]
  · rw [← List.map_reverse, List.reverse_reverse, List.map_map]
    congr 1
    conv_rhs => rw [← List.map_id s]
    apply List.map_congr_left
    intro b hb
    exact specComplement_involutive b (hs b hb)
  · intro b hb
    obtain ⟨a, ha, rfl⟩ := List.mem_map.1 hb
    exact specComplement_mem a (hs a (List.mem_reverse.1 ha))

/-- Witness of C9 at `AATTCCGG`. -/
theorem reverseComplement_involution_witness :
    (reverseComplement seqAATTCCGG).bind reverseComplement = some seqAATTCCGG :=
  reverseComplement_involution seqAATTCCGG (by decide)

/-- C10: on a string over the alphabet `A`, `C`, `G`, `T`, `N`,
`reverseComplement` returns the reversal of the string with every base replaced
by its complement (`A` and `T` exchanged, `C` and `G` exchanged, `N` kept); it
maps `ACGT` to `ACGT` and `AATTCCGG` to `CCGGAATT`. -/
theorem reverseComplement_spec (s : GoString) (hs : ∀ b ∈ s, b ∈ bases) :
    reverseComplement s = some (s.reverse.map specComplement) ∧
    reverseComplement seqACGT = some seqACGT ∧
    reverseComplement seqAATTCCGG = some seqCCGGAATT :=
  ⟨reverseComplement_bases s hs, by decide, by decide⟩

/-- Witness of C10 at `CCGGAATT`. -/
theorem reverseComplement_spec_witness :
    reverseComplement seqCCGGAATT = some (seqCCGGAATT.reverse.map specComplement) ∧
    reverseComplement seqACGT = some seqACGT ∧
    reverseComplement seqAATTCCGG = some seqCCGGAATT :=
  reverseComplement_spec seqCCGGAATT (by decide)

/-! ## The per-file pipeline of `loadFastx` -/

theorem sumCounts_filter_split (m : GoMap ℚ) (minCount : ℚ) :
    sumCounts (m.filter (fun e => decide (minCount ≤ e.2)))
      + sumCounts (m.filter (fun e => decide (e.2 < minCount))) = sumCounts m := by
  induction m with
  | nil => simp [sumCounts]
  | cons e m ih =>
    simp only [sumCounts] at ih ⊢
    by_cases h : e.2 < minCount
    · simp only [List.filter_cons, h, not_le.2 h, decide_True, decide_False, if_true,
        List.map_cons, List.sum_cons, ← ih]
      simp
      ring
    · simp only [List.filter_cons, h, not_lt.1 h, decide_True, decide_False, if_true,
        List.map_cons, List.sum_cons, ← ih]
      simp
      ring

theorem perFileInv_of_countInv (reads : List GoString) (acc : GoMap ℚ × ℚ)
    (inv : CountInv reads acc) : PerFileInv acc.1 acc.2 where
  wf := inv.wf
  total_eq := inv.sum_eq.symm
  one_le := by
    intro e he
    have hg := GoMap.get?_of_mem acc.1 e inv.wf he
    rw [inv.get_eq e.1] at hg
    by_cases h : reads.count e.1 = 0
    · simp [h] at hg
    · simp only [h, if_false, Option.some.injEq] at hg
      rw [← hg]
      exact_mod_cast Nat.pos_of_ne_zero h

/-- The per-file invariant survives `removeReadsBelowMin`, which keeps exactly
the entries that are not below a minimum greater than 1. -/
theorem removeReadsBelowMin_inv (minCount : ℚ) (m : GoMap ℚ) (total : ℚ)
    (inv : PerFileInv m total) :
    PerFileInv (removeReadsBelowMin minCount m total).1 (removeReadsBelowMin minCount m total).2 ∧
    ∀ s, GoMap.get? (removeReadsBelowMin minCount m total).1 s
      = (GoMap.get? m s).bind
          (fun v => if minCount > 1 ∧ v < minCount then none else some v) := by
  rw [removeReadsBelowMin_eq minCount m total inv.wf]
  by_cases hmin : minCount > 1
  · simp only [hmin, if_true, true_and]
    refine ⟨⟨?_, ?_, ?_⟩, ?_⟩
    · exact List.Nodup.sublist (GoMap.keys_filter_sublist m _) inv.wf
    · rw [inv.total_eq, ← sumCounts_filter_split m minCount]
      ring
    · intro e he
      exact inv.one_le e (List.mem_of_mem_filter he)
    · intro s
      rw [GoMap.get?_filter m _ s inv.wf]
      cases hg : GoMap.get? m s with
      | none => rfl
      | some v =>
        by_cases hv : v < minCount
        · simp [hv, not_le.2 hv]
        · simp [hv, not_lt.1 hv]
  · simp only [hmin, if_false, false_and]
    refine ⟨⟨inv.wf, inv.total_eq, inv.one_le⟩, ?_⟩
    intro s
    cases GoMap.get? m s <;> rfl

theorem PerFileInv.total_pos {m : GoMap ℚ} {total : ℚ} (inv : PerFileInv m total)
    (e : GoString × ℚ) (he : e ∈ m) : 0 < total := by
  have h1 : e.2 ≤ sumCounts m := by
    apply List.single_le_sum
    · intro x hx
      obtain ⟨y, hy, rfl⟩ := List.mem_map.1 hx
      exact le_trans zero_le_one (inv.one_le y hy)
    · exact List.mem_map_of_mem Prod.snd he
  rw [inv.total_eq]
  exact lt_of_lt_of_le (lt_of_lt_of_le zero_lt_one (inv.one_le e he)) h1

/-- Under the per-file invariant the normalised counts are not zero. -/
theorem rpmrNormalize_ne_zero (m : GoMap ℚ) (total : ℚ) (inv : PerFileInv m total)
    (s : GoString) (v : ℚ) (hv : GoMap.get? (rpmrNormalize m total) s = some v) : v ≠ 0 := by
  rw [rpmrNormalize_eq m total inv.wf,
    GoMap.get?_map_val m (fun c => 1000000 * c / total) s] at hv
  cases hg : GoMap.get? m s with
  | none => simp [hg] at hv
  | some c =>
    simp only [hg, Option.map_some', Option.some.injEq] at hv
    have hmem := GoMap.mem_of_get? m s c hg
    have hc : 0 < c := lt_of_lt_of_le zero_lt_one (inv.one_le (s, c) hmem)
    have ht : 0 < total := inv.total_pos (s, c) hmem
    rw [← hv]
    positivity

/-- The map `loadFastx` sends for a file that can be read through. -/
theorem loadFastx_sent (f : ReadFile) (firstChar : GoString) (minLen maxLen : Int)
    (minCount : ℚ) (noNorm : Bool) (hl : loadable f = true) :
    ∃ m total, loadFastx f.fileName f.content firstChar minLen maxLen minCount noNorm
        = some ([(f.fileName, m)], total) ∧
      SentFor firstChar minLen maxLen minCount f (f.fileName, m) := by
  cases hgz : gzSuffix f.fileName with
  | none => simp [loadable, hgz] at hl
  | some gz =>
    have hcap : ∀ l ∈ f.content gz, ByteSlice.upTo1 l ≠ none := by
      intro l hlm
      have := hl
      simp only [loadable, hgz, List.all_eq_true] at this
      have h := this l hlm
      intro hn
      simp [hn] at h
    have hreads : readsOf firstChar minLen maxLen f
        = emittedReads firstChar minLen maxLen (f.content gz) false := by
      simp [readsOf, hgz]
    obtain ⟨st, h1, h2⟩ := scanLines_eq_countReads firstChar minLen maxLen (f.content gz)
      { srnaMap := [], totalCount := 0, seqNext := false } hcap
    have cinv := countReads_inv (emittedReads firstChar minLen maxLen (f.content gz) false) []
      ([], 0) countInv_nil
    simp only [List.nil_append] at cinv
    rw [← h2, ← hreads] at cinv
    have pinv := perFileInv_of_countInv _ _ cinv
    obtain ⟨rinv, rget⟩ := removeReadsBelowMin_inv minCount st.srnaMap st.totalCount pinv
    have hkeys : ∀ s, s ∈ GoMap.keys (removeReadsBelowMin minCount st.srnaMap st.totalCount).1 ↔
        (s ∈ readsOf firstChar minLen maxLen f ∧
          (minCount > 1 → minCount ≤ ((readsOf firstChar minLen maxLen f).count s : ℚ))) := by
      intro s
      rw [GoMap.mem_keys_iff, rget s, cinv.get_eq s, ← List.count_pos_iff]
      by_cases hc : List.count s (readsOf firstChar minLen maxLen f) = 0
      · simp [hc]
      · by_cases hm : minCount > 1
        · by_cases hlt : (List.count s (readsOf firstChar minLen maxLen f) : ℚ) < minCount
          · simp [hc, hm, hlt, Nat.pos_of_ne_zero hc]
          · simp [hc, hm, hlt, Nat.pos_of_ne_zero hc, not_lt.1 hlt]
        · simp [hc, hm, Nat.pos_of_ne_zero hc]
    cases hn : noNorm with
    | true =>
      refine ⟨(removeReadsBelowMin minCount st.srnaMap st.totalCount).1,
        (removeReadsBelowMin minCount st.srnaMap st.totalCount).2,
        by simp [loadFastx, hgz, h1], ⟨rfl, rinv.wf, ?_, hkeys⟩⟩
      intro s v hv
      have h1le := rinv.one_le (s, v) (GoMap.mem_of_get? _ s v hv)
      exact ne_of_gt (lt_of_lt_of_le zero_lt_one h1le)
    | false =>
      refine ⟨rpmrNormalize (removeReadsBelowMin minCount st.srnaMap st.totalCount).1
          (removeReadsBelowMin minCount st.srnaMap st.totalCount).2,
        (removeReadsBelowMin minCount st.srnaMap st.totalCount).2,
        by simp [loadFastx, hgz, h1], ⟨rfl, ?_, ?_, ?_⟩⟩
      · rw [rpmrNormalize_eq _ _ rinv.wf]
        simpa [GoMap.WF, GoMap.keys_map_val _ (fun c => 1000000 * c /
          (removeReadsBelowMin minCount st.srnaMap st.totalCount).2)] using rinv.wf
      · exact rpmrNormalize_ne_zero _ _ rinv
      · intro s
        rw [rpmrNormalize_eq _ _ rinv.wf, GoMap.keys_map_val _ (fun c => 1000000 * c /
          (removeReadsBelowMin minCount st.srnaMap st.totalCount).2)]
        exact hkeys s

/-- The channel contents for files that can all be read through. -/
theorem loadAll_sent (firstChar : GoString) (minLen maxLen : Int) (minCount : ℚ)
    (noNorm : Bool) (files : List ReadFile) (hl : ∀ f ∈ files, loadable f = true) :
    ∃ arrivals : List (GoString × GoMap ℚ),
      loadAll firstChar minLen maxLen minCount noNorm files = some (singleFileMaps arrivals) ∧
      List.Forall₂ (SentFor firstChar minLen maxLen minCount) files arrivals := by
  induction files with
  | nil => exact ⟨[], rfl, List.Forall₂.nil⟩
  | cons f rest ih =>
    obtain ⟨m, total, h1, h2⟩ := loadFastx_sent f firstChar minLen maxLen minCount noNorm
      (hl f (List.mem_cons_self _ _))
    obtain ⟨arrivals, e1, e2⟩ := ih (fun g hg => hl g (List.mem_cons_of_mem _ hg))
    exact ⟨(f.fileName, m) :: arrivals, by simp [loadAll, h1, e1, singleFileMaps],
      List.Forall₂.cons h2 e2⟩

/-! ## C6: end to end -/

theorem forall₂_right_mem {α β : Type} {R : α → β → Prop} {l₁ : List α} {l₂ : List β}
    (h : List.Forall₂ R l₁ l₂) : ∀ b ∈ l₂, ∃ a ∈ l₁, R a b := by
  induction h with
  | nil => intro b hb; cases hb
  | cons hab _ ih =>
    intro b hb
    rcases List.mem_cons.1 hb with h | h
    · subst h
      exact ⟨_, List.mem_cons_self _ _, hab⟩
    · obtain ⟨a, ha, hr⟩ := ih b h
      exact ⟨a, List.mem_cons_of_mem _ ha, hr⟩

theorem forall₂_all_iff {α β : Type} {R : α → β → Prop} {P : α → Prop} {Q : β → Prop}
    {l₁ : List α} {l₂ : List β} (h : List.Forall₂ R l₁ l₂)
    (hpq : ∀ a b, R a b → (P a ↔ Q b)) : (∀ a ∈ l₁, P a) ↔ (∀ b ∈ l₂, Q b) := by
  induction h with
  | nil => simp
  | cons hab _ ih => simp [hpq _ _ hab, ih]

theorem forall₂_any_iff {α β : Type} {R : α → β → Prop} {P : α → Prop} {Q : β → Prop}
    {l₁ : List α} {l₂ : List β} (h : List.Forall₂ R l₁ l₂)
    (hpq : ∀ a b, R a b → (P a ↔ Q b)) : (∃ a ∈ l₁, P a) ↔ (∃ b ∈ l₂, Q b) := by
  induction h with
  | nil => simp
  | cons hab _ ih => simp [hpq _ _ hab, ih]

theorem column_ne_zero_iff (s : GoString) (p : GoString × GoMap ℚ)
    (hnz : ∀ s v, GoMap.get? p.2 s = some v → v ≠ 0) :
    column s p ≠ 0 ↔ s ∈ GoMap.keys p.2 := by
  constructor
  · intro h
    by_contra hn
    exact h (column_of_not_mem s p hn)
  · intro h
    obtain ⟨v, hv⟩ := (GoMap.mem_keys_iff p.2 s).1 h
    simpa [column, hv] using hnz s v hv

/-- C6: for at least one file, all of which can be read through, and a file
type that `loadFiles` knows, `IndvSeqLoad` returns a table such that: for
`minCount > 1` a sequence is a key exactly when its number of qualifying reads
is at least `minCount` in every file; for `minCount <= 1` a sequence is a key
exactly when it is a qualifying read of some file, and its vector then holds a
nonzero entry in the column of every file that contains it and `0` in every
other column.  On the example (file 1 reads `ACGTACGTAC` twice, file 2 does not
hold it) the sequence has the vector `(2, 0)` for `minCount = 1` and the table
is empty for `minCount = 2`. -/
theorem IndvSeqLoad_end_to_end (files : List ReadFile) (fileType firstChar : GoString)
    (minLen maxLen : Int) (minCount : ℚ) (noNorm : Bool) (hne : files ≠ [])
    (hft : markerOf fileType = some firstChar) (hl : ∀ f ∈ files, loadable f = true) :
    (∃ table load_order,
      IndvSeqLoad files fileType minLen maxLen minCount noNorm = some (table, load_order) ∧
      (minCount > 1 → ∀ s, s ∈ GoMap.keys table ↔
        ∀ f ∈ files, minCount ≤ ((readsOf firstChar minLen maxLen f).count s : ℚ)) ∧
      (minCount ≤ 1 → ∀ s,
        (s ∈ GoMap.keys table ↔ ∃ f ∈ files, s ∈ readsOf firstChar minLen maxLen f) ∧
        (s ∈ GoMap.keys table → ∃ v, GoMap.get? table s = some v ∧
          List.Forall₂ (fun f x => x ≠ 0 ↔ s ∈ readsOf firstChar minLen maxLen f) files v))) ∧
    IndvSeqLoad [exampleFile1, exampleFile2] fileTypeFa 5 15 1 true
      = some ([(readACGTACGTAC, [2, 0]), (readTTTTTTTT, [0, 2])],
          [pathBase file1, pathBase file2]) ∧
    IndvSeqLoad [exampleFile1, exampleFile2] fileTypeFa 5 15 2 true
      = some ([], [pathBase file1, pathBase file2]) := by
  refine ⟨?_, by decide!, by decide!⟩
  obtain ⟨arrivals, hload, hrel⟩ := loadAll_sent firstChar minLen maxLen minCount noNorm files hl
  have hlen : files.length = arrivals.length := hrel.length_eq
  have hwf : ∀ p ∈ arrivals, GoMap.WF p.2 := by
    intro p hp
    obtain ⟨f, _, hs⟩ := forall₂_right_mem hrel p hp
    exact hs.wf
  have hnz : ∀ p ∈ arrivals, ∀ s v, GoMap.get? p.2 s = some v → v ≠ 0 := by
    intro p hp
    obtain ⟨f, _, hs⟩ := forall₂_right_mem hrel p hp
    exact hs.ne_zero
  obtain ⟨st, h1, inv⟩ := mergeAll_inv arrivals.length arrivals [] _ hwf (by simp)
    (mergeInv_init arrivals.length)
  simp only [List.nil_append] at inv
  have harr : arrivals ≠ [] := by
    intro h
    rw [h] at hlen
    exact hne (List.length_eq_zero.1 hlen)
  have hfiles : loadFiles files fileType minLen maxLen minCount noNorm
      = some ((arrivals.length : Int), singleFileMaps arrivals) := by
    cases files with
    | nil => exact absurd rfl hne
    | cons f rest => simp only [loadFiles, hft, hload, hlen]
  have hkeys : ∀ s, s ∈ GoMap.keys st.table ↔ SeenIn arrivals s := by
    intro s
    constructor
    · intro hs
      by_contra hn
      exact (GoMap.get?_eq_none_iff st.table s).1 (inv.unseen s hn) hs
    · intro hs
      exact (GoMap.mem_keys_iff st.table s).2 ⟨_, inv.seen s hs⟩
  by_cases hmin : minCount > 1
  · refine ⟨removeUnderMinCount st.table, st.load_order,
      by simp [IndvSeqLoad, hfiles, compileCounts, h1, hmin], fun _ s => ?_,
      fun hle => absurd hmin (not_lt.2 hle)⟩
    have hall : (∀ f ∈ files, minCount ≤ ((readsOf firstChar minLen maxLen f).count s : ℚ)) ↔
        (∀ p ∈ arrivals, s ∈ GoMap.keys p.2) := by
      apply forall₂_all_iff hrel
      intro f p hs
      rw [hs.keys_iff s]
      constructor
      · intro h
        refine ⟨?_, fun _ => h⟩
        rw [← List.count_pos_iff]
        have h0 : (0 : ℚ) < ((readsOf firstChar minLen maxLen f).count s : ℚ) :=
          lt_of_lt_of_le (lt_trans zero_lt_one hmin) h
        exact_mod_cast h0
      · intro h
        exact h.2 hmin
    rw [hall, GoMap.mem_keys_iff]
    constructor
    · rintro ⟨v, hv⟩ p hp
      rw [removeUnderMinCount_get?] at hv
      cases hg : GoMap.get? st.table s with
      | none => simp [hg] at hv
      | some w =>
        by_cases hz : (0 : ℚ) ∈ w
        · simp [hg, hz] at hv
        · have hseen : SeenIn arrivals s := (hkeys s).1 ((GoMap.mem_keys_iff _ s).2 ⟨w, hg⟩)
          rw [inv.seen s hseen] at hg
          have hw : w = arrivals.map (column s) := by
            simpa [rowAfter] using (Option.some.inj hg).symm
          rw [← column_ne_zero_iff s p (hnz p hp)]
          intro hc
          apply hz
          rw [hw, ← hc]
          exact List.mem_map_of_mem _ hp
    · intro hallp
      have hseen : SeenIn arrivals s := by
        obtain ⟨p, hp⟩ := List.exists_mem_of_ne_nil arrivals harr
        exact ⟨p, hp, hallp p hp⟩
      refine ⟨arrivals.map (column s), ?_⟩
      rw [removeUnderMinCount_get?, inv.seen s hseen]
      have hz : (0 : ℚ) ∉ arrivals.map (column s) := by
        intro hm
        obtain ⟨p, hp, hc⟩ := List.mem_map.1 hm
        exact (column_ne_zero_iff s p (hnz p hp)).2 (hallp p hp) hc
      simp [rowAfter, hz]
  · have hle : minCount ≤ 1 := not_lt.1 hmin
    refine ⟨st.table, st.load_order, by simp [IndvSeqLoad, hfiles, compileCounts, h1, hmin],
      fun h => absurd h hmin, fun _ s => ?_⟩
    have hany : (∃ f ∈ files, s ∈ readsOf firstChar minLen maxLen f) ↔ SeenIn arrivals s := by
      apply forall₂_any_iff hrel
      intro f p hs
      rw [hs.keys_iff s]
      exact ⟨fun h => ⟨h, fun h' => absurd h' hmin⟩, fun h => h.1⟩
    refine ⟨by rw [hkeys s, hany], fun hs => ⟨arrivals.map (column s), ?_, ?_⟩⟩
    · rw [inv.seen s ((hkeys s).1 hs)]
      simp [rowAfter]
    · rw [List.forall₂_map_right_iff]
      refine List.Forall₂.imp ?_ hrel
      intro f p hsent
      rw [column_ne_zero_iff s p hsent.ne_zero, hsent.keys_iff s]
      exact ⟨fun h => h.1, fun h => ⟨h, fun h' => absurd h' hmin⟩⟩

/-- Witness of C6 at the two example files read as FASTA with `minCount = 2`. -/
theorem IndvSeqLoad_end_to_end_witness :
    (∃ table load_order,
      IndvSeqLoad [exampleFile1, exampleFile2] fileTypeFa 5 15 2 false
        = some (table, load_order) ∧
      ((2 : ℚ) > 1 → ∀ s, s ∈ GoMap.keys table ↔
        ∀ f ∈ [exampleFile1, exampleFile2], (2 : ℚ) ≤ ((readsOf [62] 5 15 f).count s : ℚ)) ∧
      ((2 : ℚ) ≤ 1 → ∀ s,
        (s ∈ GoMap.keys table ↔ ∃ f ∈ [exampleFile1, exampleFile2], s ∈ readsOf [62] 5 15 f) ∧
        (s ∈ GoMap.keys table → ∃ v, GoMap.get? table s = some v ∧
          List.Forall₂ (fun f x => x ≠ 0 ↔ s ∈ readsOf [62] 5 15 f)
            [exampleFile1, exampleFile2] v))) ∧
    IndvSeqLoad [exampleFile1, exampleFile2] fileTypeFa 5 15 1 true
      = some ([(readACGTACGTAC, [2, 0]), (readTTTTTTTT, [0, 2])],
          [pathBase file1, pathBase file2]) ∧
    IndvSeqLoad [exampleFile1, exampleFile2] fileTypeFa 5 15 2 true
      = some ([], [pathBase file1, pathBase file2]) :=
  IndvSeqLoad_end_to_end [exampleFile1, exampleFile2] fileTypeFa [62] 5 15 2 false
    (by simp) (by decide) (by decide)

/-! ## C14: `reverseComplement` on every string -/

theorem encodeRune_complement (r : Nat) :
    encodeRune (runeMapGet complement r) = [complementOrSentinel r] := by
  by_cases h1 : r = 65
  · subst h1; decide
  by_cases h2 : r = 67
  · subst h2; decide
  by_cases h3 : r = 71
  · subst h3; decide
  by_cases h4 : r = 84
  · subst h4; decide
  by_cases h5 : r = 78
  · subst h5; decide
  have e1 : ¬ 65 = r := fun e => h1 e.symm
  have e2 : ¬ 67 = r := fun e => h2 e.symm
  have e3 : ¬ 71 = r := fun e => h3 e.symm
  have e4 : ¬ 84 = r := fun e => h4 e.symm
  have e5 : ¬ 78 = r := fun e => h5 e.symm
  simp only [complement, runeMapGet, e1, e2, e3, e4, e5, if_false, complementOrSentinel, h1, h2,
    h3, h4, h5]
  decide

theorem flatten_map_singleton_nat (l : List Nat) (f : Nat → GoString) (g : Nat → UInt8)
    (h : ∀ r, f r = [g r]) : (l.map f).flatten = l.map g := by
  induction l with
  | nil => rfl
  | cons r rest ih => simp [h r, ih]

theorem complementOrSentinel_lt (r : Nat) : complementOrSentinel r < 0x80 := by
  unfold complementOrSentinel
  split_ifs <;> decide

/-- The closed form of `reverseComplement` on every string. -/
theorem reverseComplement_closed (seq : GoString) :
    reverseComplement seq = some ((decodeRunes seq).reverse.map complementOrSentinel) := by
  rw [reverseComplement, reverseComplementLoop_eq (decodeRunes seq) _ [] (le_refl _)]
  simp only [List.nil_append, List.take_length]
  rw [flatten_map_singleton_nat _ _ complementOrSentinel encodeRune_complement]

/-- C14: on every string `reverseComplement` returns a result (no lookup or index
fails); the result has one byte, which is one character, for each rune of the
input, the byte at position
`i` being the complement of rune `n - 1 - i` of the input when that rune is one
of `A`, `C`, `G`, `T`, `N`, and the byte 0 otherwise; the byte 0 is none of `A`,
`C`, `G`, `T`, `N`. -/
theorem reverseComplement_total (seq : GoString) :
    ∃ out, reverseComplement seq = some out ∧
      out.length = (decodeRunes seq).length ∧
      decodeRunes out = out.map UInt8.toNat ∧
      (∀ i, i < (decodeRunes seq).length →
        out[i]? = ((decodeRunes seq)[(decodeRunes seq).length - 1 - i]?).map complementOrSentinel) ∧
      (∀ b ∈ bases, complementOrSentinel b.toNat = specComplement b) ∧
      (∀ r, r ∉ bases.map UInt8.toNat → complementOrSentinel r = 0) ∧
      (0 : UInt8) ∉ bases := by
  refine ⟨_, reverseComplement_closed seq, by simp, ?_, ?_, by decide, ?_, by decide⟩
  · apply decodeRunesAux_ascii _ _ (le_refl _)
    intro b hb
    obtain ⟨r, _, rfl⟩ := List.mem_map.1 hb
    exact complementOrSentinel_lt r
  · intro i hi
    rw [List.getElem?_map, List.getElem?_reverse hi]
  · intro r hr
    have h : r ≠ 65 ∧ r ≠ 67 ∧ r ≠ 71 ∧ r ≠ 84 ∧ r ≠ 78 := by
      refine ⟨?_, ?_, ?_, ?_, ?_⟩ <;> intro e <;> subst e <;> exact hr (by decide)
    simp [complementOrSentinel, h.1, h.2.1, h.2.2.1, h.2.2.2.1, h.2.2.2.2]

/-! ## C15 and C17: the running total of the per-file counter -/

theorem GoMap.mem_set {β : Type} (m : GoMap β) (k : GoString) (v : β) (e : GoString × β)
    (he : e ∈ GoMap.set m k v) : e ∈ m ∨ e = (k, v) := by
  induction m with
  | nil =>
    simp only [GoMap.set, List.mem_singleton] at he
    exact Or.inr he
  | cons x m ih =>
    obtain ⟨a, b⟩ := x
    by_cases h : a = k
    · simp only [GoMap.set, h, if_true, List.mem_cons] at he
      rcases he with he | he
      · exact Or.inr he
      · exact Or.inl (List.mem_cons_of_mem _ he)
    · simp only [GoMap.set, h, if_false, List.mem_cons] at he
      rcases he with he | he
      · exact Or.inl (he ▸ List.mem_cons_self _ _)
      · rcases ih he with h' | h'
        · exact Or.inl (List.mem_cons_of_mem _ h')
        · exact Or.inr h'

/-- One call of `addFullLengthRead` keeps the per-file invariant. -/
theorem addFullLengthRead_inv (m : GoMap ℚ) (r : GoString) (t : ℚ) (b : Bool)
    (inv : PerFileInv m t) :
    PerFileInv (addFullLengthRead m r t b).1 (addFullLengthRead m r t b).2.1 := by
  rw [addFullLengthRead_eq]
  have h0 : 0 ≤ (GoMap.get? m r).getD 0 := by
    cases hg : GoMap.get? m r with
    | none => simp
    | some c =>
      simpa using le_trans zero_le_one (inv.one_le (r, c) (GoMap.mem_of_get? m r c hg))
  constructor
  · exact GoMap.WF_set _ _ _ inv.wf
  · simp only [sumCounts_set, inv.total_eq]
    ring
  · intro e he
    rcases GoMap.mem_set m r _ e he with h | h
    · exact inv.one_le e h
    · rw [h]
      simpa using h0

/-- Every state the line loop reaches from the empty map and the total 0
satisfies the per-file invariant. -/
theorem scanLines_inv (firstChar : GoString) (minLen maxLen : Int) (lines : List ByteSlice) :
    ∀ (st st' : CountState), PerFileInv st.srnaMap st.totalCount →
      scanLines firstChar minLen maxLen lines st = some st' →
      PerFileInv st'.srnaMap st'.totalCount := by
  induction lines with
  | nil =>
    intro st st' inv h
    simp only [scanLines, Option.some.injEq] at h
    exact h ▸ inv
  | cons l rest ih =>
    intro st st' inv h
    cases hu : l.upTo1 with
    | none => simp [scanLines, scanLine, hu] at h
    | some head =>
      by_cases h1 : head = firstChar
      · simp only [scanLines, scanLine, hu, h1, if_true] at h
        exact ih { srnaMap := st.srnaMap, totalCount := st.totalCount, seqNext := true } st'
          inv h
      · by_cases h2 : st.seqNext = true ∧ inBounds minLen maxLen l = true
        · simp only [scanLines, scanLine, hu, h1, h2, if_false, and_self, if_true] at h
          exact ih _ st' (addFullLengthRead_inv st.srnaMap l.bytes st.totalCount st.seqNext inv) h
        · simp only [scanLines, scanLine, hu, h1, h2, if_false] at h
          exact ih _ st' inv h

theorem perFileInv_empty : PerFileInv [] 0 where
  wf := List.nodup_nil
  total_eq := by simp [sumCounts]
  one_le := fun _ h => absurd h (List.not_mem_nil _)

theorem PerFileInv.eq_nil_of_total_zero {m : GoMap ℚ} {total : ℚ} (inv : PerFileInv m total)
    (h : total = 0) : m = [] := by
  cases m with
  | nil => rfl
  | cons e rest =>
    have := inv.total_pos e (List.mem_cons_self _ _)
    rw [h] at this
    exact absurd this (lt_irrefl 0)

/-- C15: the running total equals the sum of the counts stored in the per-file
map after every call of `addFullLengthRead` that starts from such a state,
after `removeReadsBelowMin` for every `minCount` on a well-formed map, and in
every state the line loop of `loadFastx` reaches, also once that state is
filtered, so that the total handed to `rpmrNormalize` is the sum of the retained
counts. -/
theorem perFileCounter_total_eq_sum :
    (∀ (m : GoMap ℚ) (r : GoString) (t : ℚ) (b : Bool), t = sumCounts m →
      (addFullLengthRead m r t b).2.1 = sumCounts (addFullLengthRead m r t b).1) ∧
    (∀ (minCount : ℚ) (m : GoMap ℚ) (t : ℚ), GoMap.WF m → t = sumCounts m →
      (removeReadsBelowMin minCount m t).2 = sumCounts (removeReadsBelowMin minCount m t).1) ∧
    (∀ (firstChar : GoString) (minLen maxLen : Int) (lines : List ByteSlice) (st : CountState)
      (minCount : ℚ),
      scanLines firstChar minLen maxLen lines { srnaMap := [], totalCount := 0, seqNext := false }
        = some st →
      st.totalCount = sumCounts st.srnaMap ∧
      (removeReadsBelowMin minCount st.srnaMap st.totalCount).2
        = sumCounts (removeReadsBelowMin minCount st.srnaMap st.totalCount).1) := by
  refine ⟨?_, ?_, ?_⟩
  · intro m r t b ht
    rw [addFullLengthRead_eq]
    simp only [sumCounts_set, ht]
    ring
  · intro minCount m t hwf ht
    rw [removeReadsBelowMin_eq minCount m t hwf]
    by_cases hmin : minCount > 1
    · simp only [hmin, if_true]
      rw [ht, ← sumCounts_filter_split m minCount]
      ring
    · simp only [hmin, if_false]
      exact ht
  · intro firstChar minLen maxLen lines st minCount h
    have inv := scanLines_inv firstChar minLen maxLen lines _ st perFileInv_empty h
    exact ⟨inv.total_eq, (removeReadsBelowMin_inv minCount _ _ inv).1.total_eq⟩

/-- C17: in every state `st` the line loop of `loadFastx` reaches, for every
`minCount`, when the total that `removeReadsBelowMin` returns is 0 the map it
returns is empty, so that the loop of `rpmrNormalize` has no entry to divide
and returns the empty map. -/
theorem rpmrNormalize_no_zero_division (firstChar : GoString) (minLen maxLen : Int)
    (lines : List ByteSlice) (st : CountState) (minCount : ℚ)
    (h : scanLines firstChar minLen maxLen lines
      { srnaMap := [], totalCount := 0, seqNext := false } = some st)
    (hzero : (removeReadsBelowMin minCount st.srnaMap st.totalCount).2 = 0) :
    (removeReadsBelowMin minCount st.srnaMap st.totalCount).1 = [] ∧
    rpmrNormalize (removeReadsBelowMin minCount st.srnaMap st.totalCount).1
      (removeReadsBelowMin minCount st.srnaMap st.totalCount).2 = [] := by
  have inv := scanLines_inv firstChar minLen maxLen lines _ st perFileInv_empty h
  have rinv := (removeReadsBelowMin_inv minCount _ _ inv).1
  have hnil := rinv.eq_nil_of_total_zero hzero
  refine ⟨hnil, ?_⟩
  rw [hnil]
  rfl

/-- Witness of C17 at file 1 with `minCount = 3`, which removes every read. -/
theorem rpmrNormalize_no_zero_division_witness :
    ∃ st, scanLines [62] 5 15 lines1 { srnaMap := [], totalCount := 0, seqNext := false }
        = some st ∧
      (removeReadsBelowMin 3 st.srnaMap st.totalCount).2 = 0 ∧
      (removeReadsBelowMin 3 st.srnaMap st.totalCount).1 = [] ∧
      rpmrNormalize (removeReadsBelowMin 3 st.srnaMap st.totalCount).1
        (removeReadsBelowMin 3 st.srnaMap st.totalCount).2 = [] :=
  ⟨_, rfl, by decide!, rpmrNormalize_no_zero_division [62] 5 15 lines1 _ 3 rfl (by decide!)⟩

/-! ## C13: a zero total under normalisation -/

set_option synthInstance.maxSize 1000

/-- What `loadFastx` returns for a file that can be read through, in terms of the
state the line loop ends in. -/
theorem loadFastx_result (f : ReadFile) (firstChar : GoString) (minLen maxLen : Int)
    (minCount : ℚ) (noNorm : Bool) (hl : loadable f = true) :
    ∃ gz st, gzSuffix f.fileName = some gz ∧
      scanLines firstChar minLen maxLen (f.content gz)
        { srnaMap := [], totalCount := 0, seqNext := false } = some st ∧
      loadFastx f.fileName f.content firstChar minLen maxLen minCount noNorm
        = some ([(f.fileName,
            if noNorm = false then
              rpmrNormalize (removeReadsBelowMin minCount st.srnaMap st.totalCount).1
                (removeReadsBelowMin minCount st.srnaMap st.totalCount).2
            else (removeReadsBelowMin minCount st.srnaMap st.totalCount).1)],
          (removeReadsBelowMin minCount st.srnaMap st.totalCount).2) := by
  cases hgz : gzSuffix f.fileName with
  | none => simp [loadable, hgz] at hl
  | some gz =>
    have hcap : ∀ l ∈ f.content gz, ByteSlice.upTo1 l ≠ none := by
      intro l hlm
      have := hl
      simp only [loadable, hgz, List.all_eq_true] at this
      have h := this l hlm
      intro hn
      simp [hn] at h
    obtain ⟨st, h1, _⟩ := scanLines_eq_countReads firstChar minLen maxLen (f.content gz)
      { srnaMap := [], totalCount := 0, seqNext := false } hcap
    refine ⟨gz, st, rfl, h1, ?_⟩
    cases noNorm <;> simp [loadFastx, hgz, h1]

/-- Counterexample to C13: with normalisation requested, a file without any line
and a file whose reads are all below `minCount = 3` both have the retained
total 0, and `loadFastx` returns normally, with the empty map and the total 0. -/
theorem loadFastx_zero_total_returns :
    loadFastx file1 (fun _ => []) [62] 5 15 1 false
      = some ([(file1, ([] : GoMap ℚ))], (0 : ℚ)) ∧
    loadFastx file1 (fun _ => lines1) [62] 5 15 3 false
      = some ([(file1, ([] : GoMap ℚ))], (0 : ℚ)) :=
  ⟨by decide!, by decide!⟩

/-- C13, amended: with normalisation requested, `loadFastx` reports no error on
a file that can be read through: it returns normally, and when the retained
total is 0 the map it sends is empty. -/
theorem loadFastx_zero_total (f : ReadFile) (firstChar : GoString) (minLen maxLen : Int)
    (minCount : ℚ) (hl : loadable f = true) :
    ∃ m total, loadFastx f.fileName f.content firstChar minLen maxLen minCount false
        = some ([(f.fileName, m)], total) ∧
      (total = 0 → m = []) := by
  obtain ⟨gz, st, _, h1, h2⟩ := loadFastx_result f firstChar minLen maxLen minCount false hl
  refine ⟨_, _, h2, ?_⟩
  intro hzero
  have inv := scanLines_inv firstChar minLen maxLen (f.content gz) _ st perFileInv_empty h1
  have rinv := (removeReadsBelowMin_inv minCount _ _ inv).1
  rw [rinv.eq_nil_of_total_zero hzero]
  rfl

/-- Witness of the amended C13 at example file 1 with `minCount = 3`. -/
theorem loadFastx_zero_total_witness :
    ∃ m total, loadFastx exampleFile1.fileName exampleFile1.content [62] 5 15 3 false
        = some ([(exampleFile1.fileName, m)], total) ∧
      (total = 0 → m = []) :=
  loadFastx_zero_total exampleFile1 [62] 5 15 3 (by decide)

/-! ## C20: the test on the file name -/

/-- C20, on the code: for the one-byte path `a` the test
`fileName[len(fileName)-2:] == "gz"` panics, and so does `loadFastx`, whatever
the file holds; for a path of at least two bytes the test is defined and holds
exactly when the last two bytes are `gz`. -/
theorem gzSuffix_short_name :
    gzSuffix [97] = none ∧
    (∀ (content : Bool → List ByteSlice) (firstChar : GoString) (minLen maxLen : Int)
      (minCount : ℚ) (noNorm : Bool),
      loadFastx [97] content firstChar minLen maxLen minCount noNorm = none) ∧
    (∀ fileName : GoString, 2 ≤ fileName.length →
      gzSuffix fileName = some (decide (fileName.drop (fileName.length - 2) = [103, 122]))) := by
  refine ⟨by decide, ?_, ?_⟩
  · intro content firstChar minLen maxLen minCount noNorm
    have h : gzSuffix [97] = none := by decide
    simp [loadFastx, h]
  · intro fileName hlen
    have : ¬ fileName.length < 2 := by omega
    simp [gzSuffix, this]

/-! ## C16: the line loop on blank lines and on an input without lines -/

theorem splitNewline_none (data : GoString) (h : (splitNewline data).2 = none) :
    (splitNewline data).1 = data := by
  induction data with
  | nil => rfl
  | cons b rest ih =>
    by_cases hb : b = 10
    · simp [splitNewline, hb] at h
    · simp only [splitNewline, hb, if_false] at h ⊢
      rw [ih h]

theorem scannerToken_lineToken_newline (line rest : GoString) :
    scannerToken (lineToken line (10 :: rest)) = true := by
  by_cases h : line.getLast? = some 13 <;> simp [lineToken, scannerToken, h]

theorem scannerToken_lineToken_end (line : GoString) (hne : line ≠ []) :
    scannerToken (lineToken line []) = true := by
  by_cases h : line.getLast? = some 13 <;> simp [lineToken, scannerToken, h, hne]

/-- Every line the scanner yields is a scanner token. -/
theorem scanTokens_scannerToken (fuel : Nat) :
    ∀ (data : GoString), ∀ l ∈ scanTokens fuel data, scannerToken l = true := by
  induction fuel with
  | zero => intro data l hl; simp [scanTokens] at hl
  | succ fuel ih =>
    intro data l hl
    cases data with
    | nil => simp [scanTokens] at hl
    | cons b data =>
      cases hs : (splitNewline (b :: data)).2 with
      | some rest =>
        simp only [scanTokens, hs, List.mem_cons] at hl
        rcases hl with hl | hl
        · rw [hl]
          exact scannerToken_lineToken_newline _ _
        · exact ih rest l hl
      | none =>
        simp only [scanTokens, hs, List.mem_singleton] at hl
        rw [hl, splitNewline_none _ hs]
        exact scannerToken_lineToken_end _ (List.cons_ne_nil _ _)

theorem upTo1_of_scannerToken (l : ByteSlice) (h : scannerToken l = true) :
    ByteSlice.upTo1 l ≠ none := by
  cases hb : l.bytes with
  | cons x xs => simp [ByteSlice.upTo1, hb]
  | nil =>
    cases hsp : l.spare with
    | cons y ys => simp [ByteSlice.upTo1, hb, hsp]
    | nil => simp [scannerToken, hb, hsp] at h

theorem blank_not_marker (firstChar : GoString) (l : ByteSlice)
    (h10 : firstChar ≠ [10]) (h13 : firstChar ≠ [13]) (h : scannerToken l = true)
    (hb : l.bytes = []) : isMarkerLine firstChar l = false := by
  cases hsp : l.spare with
  | nil => simp [scannerToken, hb, hsp] at h
  | cons y ys =>
    have hy : y = 10 ∨ y = 13 := by simpa [scannerToken, hb, hsp] using h
    rcases hy with hy | hy <;> subst hy
    · simp only [isMarkerLine, ByteSlice.upTo1, hb, hsp, List.nil_append, Option.some.injEq,
        decide_eq_false_iff_not]
      exact fun e => h10 e.symm
    · simp only [isMarkerLine, ByteSlice.upTo1, hb, hsp, List.nil_append, Option.some.injEq,
        decide_eq_false_iff_not]
      exact fun e => h13 e.symm

theorem scanLines_markers_only (firstChar : GoString) (minLen maxLen : Int)
    (lines : List ByteSlice) (h : ∀ l ∈ lines, isMarkerLine firstChar l = true) :
    ∀ (st : CountState), ∃ st', scanLines firstChar minLen maxLen lines st = some st' ∧
      st'.srnaMap = st.srnaMap ∧ st'.totalCount = st.totalCount := by
  induction lines with
  | nil => intro st; exact ⟨st, rfl, rfl, rfl⟩
  | cons l rest ih =>
    intro st
    have hu : l.upTo1 = some firstChar := by
      simpa [isMarkerLine] using h l (List.mem_cons_self _ _)
    obtain ⟨st', e1, e2, e3⟩ := ih (fun l' hl' => h l' (List.mem_cons_of_mem _ hl'))
      { srnaMap := st.srnaMap, totalCount := st.totalCount, seqNext := true }
    exact ⟨st', by simp [scanLines, scanLine, hu, e1], e2, e3⟩

/-- C16: on every list of lines a scanner yields, blank lines included, and for
a marker that is neither a newline nor a carriage return, the line loop of
`loadFastx` ends without panic: the test of `fasta_line[:1]` against the marker
is defined on every line, a blank line is not a marker line, an input without
lines leaves the empty map and the total 0, and so does an input of marker
lines only. -/
theorem scanLines_total (firstChar : GoString) (minLen maxLen : Int) (lines : List ByteSlice)
    (h10 : firstChar ≠ [10]) (h13 : firstChar ≠ [13])
    (htok : ∀ l ∈ lines, scannerToken l = true) :
    (∃ st, scanLines firstChar minLen maxLen lines
      { srnaMap := [], totalCount := 0, seqNext := false } = some st) ∧
    (∀ l ∈ lines, ByteSlice.upTo1 l ≠ none) ∧
    (∀ l ∈ lines, l.bytes = [] → isMarkerLine firstChar l = false) ∧
    scanLines firstChar minLen maxLen []
      { srnaMap := [], totalCount := 0, seqNext := false }
      = some { srnaMap := [], totalCount := 0, seqNext := false } ∧
    ((∀ l ∈ lines, isMarkerLine firstChar l = true) →
      ∃ st, scanLines firstChar minLen maxLen lines
          { srnaMap := [], totalCount := 0, seqNext := false } = some st ∧
        st.srnaMap = [] ∧ st.totalCount = 0) := by
  have hcap : ∀ l ∈ lines, ByteSlice.upTo1 l ≠ none :=
    fun l hl => upTo1_of_scannerToken l (htok l hl)
  refine ⟨?_, hcap, ?_, rfl, ?_⟩
  · obtain ⟨st, h, _⟩ := scanLines_eq_countReads firstChar minLen maxLen lines
      { srnaMap := [], totalCount := 0, seqNext := false } hcap
    exact ⟨st, h⟩
  · intro l hl hb
    exact blank_not_marker firstChar l h10 h13 (htok l hl) hb
  · intro hm
    exact scanLines_markers_only firstChar minLen maxLen lines hm _

/-- Witness of C16 at the lines of an input with two blank lines, read as FASTA. -/
theorem scanLines_total_witness :
    (∃ st, scanLines [62] 5 15 (scannerLines exampleInput)
      { srnaMap := [], totalCount := 0, seqNext := false } = some st) ∧
    (∀ l ∈ scannerLines exampleInput, ByteSlice.upTo1 l ≠ none) ∧
    (∀ l ∈ scannerLines exampleInput, l.bytes = [] → isMarkerLine [62] l = false) ∧
    scanLines [62] 5 15 []
      { srnaMap := [], totalCount := 0, seqNext := false }
      = some { srnaMap := [], totalCount := 0, seqNext := false } ∧
    ((∀ l ∈ scannerLines exampleInput, isMarkerLine [62] l = true) →
      ∃ st, scanLines [62] 5 15 (scannerLines exampleInput)
          { srnaMap := [], totalCount := 0, seqNext := false } = some st ∧
        st.srnaMap = [] ∧ st.totalCount = 0) :=
  scanLines_total [62] 5 15 (scannerLines exampleInput) (by decide) (by decide)
    (scanTokens_scannerToken _ exampleInput)

/-! ## C11, C12 and C19: `RefLoad` -/

/-- The line loop of `RefLoad` from any state: it ends without panic, closes the
record that was open with the lines before the next header line, then adds one
record for each header line; the length grows by the lengths of the lines that
are not header lines. -/
theorem refLines_spec (unicodeToUpper : Nat → Nat) (lines : List GoString) :
    ∀ (st : RefState), ∃ st', refLines unicodeToUpper lines st = some st' ∧
      st'.refSlice ++ [recordOf (st'.header, st'.refSeq)]
        = st.refSlice
          ++ recordOf (st.header, st.refSeq ++ bodyBySpec unicodeToUpper lines)
            :: (recordsBySpec unicodeToUpper lines).map recordOf ∧
      st'.totalLength = st.totalLength + bodyLength lines := by
  induction lines with
  | nil =>
    intro st
    exact ⟨st, rfl, by simp [bodyBySpec, recordsBySpec], by simp [bodyLength]⟩
  | cons l rest ih =>
    intro st
    by_cases hh : isHeaderLine l = true
    · obtain ⟨st', e1, e2, e3⟩ := ih
        { totalLength := st.totalLength,
          refSlice := st.refSlice ++ [recordOf (st.header, st.refSeq)],
          header := l.drop 1, refSeq := [] }
      refine ⟨st', ?_, ?_, ?_⟩
      · simp only [refLines, refLine, hh, if_true, reverseComplement_closed]
        exact e1
      · rw [e2]
        simp [bodyBySpec, recordsBySpec, hh]
      · rw [e3]
        simp [bodyLength, hh]
    · have hf : isHeaderLine l = false := by simpa using hh
      by_cases hl : l = []
      · subst hl
        obtain ⟨st', e1, e2, e3⟩ := ih st
        refine ⟨st', ?_, ?_, ?_⟩
        · simp only [refLines, refLine, hf, List.length_nil]
          exact e1
        · rw [e2]
          simp only [bodyBySpec, recordsBySpec, hf, if_true, Bool.false_eq_true, if_false]
        · rw [e3]
          simp only [bodyLength, hf, Bool.false_eq_true, if_false, List.length_nil]
          simp
      · have hlen : l.length ≠ 0 := fun h => hl (List.length_eq_zero.1 h)
        obtain ⟨st', e1, e2, e3⟩ := ih
          { totalLength := st.totalLength + (l.length : Int),
            refSlice := st.refSlice,
            header := st.header,
            refSeq := st.refSeq ++ stringsToUpper unicodeToUpper l }
        refine ⟨st', ?_, ?_, ?_⟩
        · simp only [refLines, refLine, hf, hlen, ne_eq, not_false_eq_true, if_true,
            Bool.false_eq_true, if_false]
          exact e1
        · rw [e2]
          simp only [bodyBySpec, recordsBySpec, hf, hl, Bool.false_eq_true, if_false,
            List.append_assoc]
        · rw [e3]
          simp only [bodyLength, hf, Bool.false_eq_true, if_false]
          ring

/-- The result of `RefLoad` on every list of lines. -/
theorem RefLoad_eq (unicodeToUpper : Nat → Nat) (lines : List GoString) :
    RefLoad unicodeToUpper lines
      = some ((recordsBySpec unicodeToUpper lines).map recordOf, bodyLength lines) := by
  obtain ⟨st', e1, e2, e3⟩ := refLines_spec unicodeToUpper lines
    { totalLength := 0, refSlice := [], header := [], refSeq := [] }
  have e2' : st'.refSlice ++
      [{ Header := st'.header, Seq := st'.refSeq,
         ReverseSeq := (decodeRunes st'.refSeq).reverse.map complementOrSentinel }]
      = recordOf ([], [] ++ bodyBySpec unicodeToUpper lines)
        :: (recordsBySpec unicodeToUpper lines).map recordOf := by
    simpa [recordOf] using e2
  simp only [RefLoad, e1, reverseComplement_closed, e2', e3]
  simp

theorem recordsBySpec_length (unicodeToUpper : Nat → Nat) (lines : List GoString) :
    (recordsBySpec unicodeToUpper lines).length = lines.countP isHeaderLine := by
  induction lines with
  | nil => rfl
  | cons l rest ih =>
    by_cases hh : isHeaderLine l = true <;> simp [recordsBySpec, hh, ih, List.countP_cons]

theorem recordsBySpec_no_header (unicodeToUpper : Nat → Nat) (pre rest : List GoString)
    (h : ∀ l ∈ pre, isHeaderLine l = false) :
    recordsBySpec unicodeToUpper (pre ++ rest) = recordsBySpec unicodeToUpper rest := by
  induction pre with
  | nil => rfl
  | cons l pre ih =>
    have hl := h l (List.mem_cons_self _ _)
    simp [recordsBySpec, hl, ih (fun l' hl' => h l' (List.mem_cons_of_mem _ hl'))]

/-- C11: on every list of lines `RefLoad` returns as many records as there are
lines that begin with `>`; the lines before the first header line give no record
and do not change the records returned; a file without header line, the empty
file included, gives no record; and the lines `>h1`, `ACGT`, `>h2`, `TTTT` give
the two records of sequences `ACGT` and `TTTT`. -/
theorem RefLoad_record_count (unicodeToUpper : Nat → Nat) (lines : List GoString) :
    ∃ recs total, RefLoad unicodeToUpper lines = some (recs, total) ∧
      recs.length = lines.countP isHeaderLine ∧
      (∀ pre rest, lines = pre ++ rest → (∀ l ∈ pre, isHeaderLine l = false) →
        ∃ total', RefLoad unicodeToUpper rest = some (recs, total')) ∧
      ((∀ l ∈ lines, isHeaderLine l = false) → recs = []) ∧
      RefLoad unicodeToUpper [] = some ([], 0) ∧
      RefLoad unicodeToUpper refLinesTwo
        = some ([{ Header := [104, 49], Seq := seqACGT, ReverseSeq := seqACGT },
                 { Header := [104, 50], Seq := seqTTTT, ReverseSeq := seqAAAA }], 8) := by
  refine ⟨_, _, RefLoad_eq unicodeToUpper lines, ?_, ?_, ?_, rfl, rfl⟩
  · simp [recordsBySpec_length]
  · intro pre rest hl hpre
    refine ⟨bodyLength rest, ?_⟩
    rw [RefLoad_eq, hl, recordsBySpec_no_header unicodeToUpper pre rest hpre]
  · intro hno
    have := recordsBySpec_no_header unicodeToUpper lines [] hno
    simp only [List.append_nil] at this
    rw [this]
    rfl

/-- C12: on every list of lines `RefLoad` returns, in file order, one record for
each header line, whose `Header` is the header line less its leading `>`, whose
`Seq` is the concatenation, in order, of the upper-cased non-empty lines between
that header line and the next one (or the end of the file), and whose
`ReverseSeq` is `reverseComplement(Seq)`. -/
theorem RefLoad_records (unicodeToUpper : Nat → Nat) (lines : List GoString) :
    ∃ recs total, RefLoad unicodeToUpper lines = some (recs, total) ∧
      recs.map (fun r => (r.Header, r.Seq)) = recordsBySpec unicodeToUpper lines ∧
      (∀ r ∈ recs, reverseComplement r.Seq = some r.ReverseSeq) := by
  refine ⟨_, _, RefLoad_eq unicodeToUpper lines, ?_, ?_⟩
  · rw [List.map_map]
    conv_rhs => rw [← List.map_id (recordsBySpec unicodeToUpper lines)]
    apply List.map_congr_left
    intro p _
    rfl
  · intro r hr
    obtain ⟨p, _, rfl⟩ := List.mem_map.1 hr
    exact reverseComplement_closed p.2

/-- C19, on the code: for the lines `;hg`, `>h1`, `ACGT` the combined length
`RefLoad` reports is 7, the comment line before the first header being counted,
while the only record returned has the sequence `ACGT`, of length 4; in general
the reported length is the sum of the lengths of all lines that are not header
lines. -/
theorem RefLoad_length_counts_dropped_lines (unicodeToUpper : Nat → Nat) :
    RefLoad unicodeToUpper [commentLine, headerH1, seqACGT]
      = some ([{ Header := [104, 49], Seq := seqACGT, ReverseSeq := seqACGT }], 7) ∧
    (([{ Header := [104, 49], Seq := seqACGT, ReverseSeq := seqACGT }] : List HeaderRef).map
      (fun r => (r.Seq.length : Int))).sum = 4 ∧
    (∀ lines, ∃ recs, RefLoad unicodeToUpper lines = some (recs, bodyLength lines)) :=
  ⟨rfl, rfl, fun lines => ⟨_, RefLoad_eq unicodeToUpper lines⟩⟩

/-! ## C18: the order in which the files complete -/

theorem permuteBy_length {α : Type} (l : List α) (σ : Equiv.Perm (Fin l.length)) :
    (permuteBy l σ).length = l.length := by
  simp [permuteBy]

theorem permuteBy_getElem? {α : Type} (l : List α) (σ : Equiv.Perm (Fin l.length))
    (i : Fin l.length) : (permuteBy l σ)[(σ i).val]? = some (l.get i) := by
  have h : (σ i).val < (permuteBy l σ).length := by
    rw [permuteBy_length]
    exact (σ i).isLt
  rw [List.getElem?_eq_getElem h]
  simp [permuteBy, List.getElem_ofFn]

theorem mem_permuteBy {α : Type} (l : List α) (σ : Equiv.Perm (Fin l.length)) (a : α) :
    a ∈ permuteBy l σ ↔ a ∈ l := by
  simp only [permuteBy, List.mem_ofFn, Set.mem_range]
  constructor
  · rintro ⟨j, rfl⟩
    exact List.get_mem _ _ _
  · intro ha
    obtain ⟨i, hi⟩ := List.get_of_mem ha
    refine ⟨σ i, ?_⟩
    rw [Equiv.symm_apply_apply]
    exact hi

/-- What `compileCounts` returns on single-file arrivals when `no_of_files` is
their number. -/
theorem compileCounts_single (arrivals : List (GoString × GoMap ℚ)) (min_count : ℚ)
    (hwf : ∀ p ∈ arrivals, GoMap.WF p.2) :
    ∃ table load_order,
      compileCounts (singleFileMaps arrivals) (arrivals.length : Int) min_count
        = some (table, load_order) ∧
      load_order = arrivals.map (fun p => pathBase p.1) ∧
      (∀ s v, GoMap.get? table s = some v → v = arrivals.map (column s)) ∧
      (∀ s, s ∈ GoMap.keys table ↔
        (SeenIn arrivals s ∧ (min_count > 1 → (0 : ℚ) ∉ arrivals.map (column s)))) := by
  obtain ⟨st, h1, inv⟩ := mergeAll_inv arrivals.length arrivals [] _ hwf (by simp)
    (mergeInv_init arrivals.length)
  simp only [List.nil_append] at inv
  have hget : ∀ s v, GoMap.get? st.table s = some v →
      SeenIn arrivals s ∧ v = arrivals.map (column s) := by
    intro s v hv
    by_cases hs : SeenIn arrivals s
    · rw [inv.seen s hs] at hv
      exact ⟨hs, by simpa [rowAfter] using (Option.some.inj hv).symm⟩
    · rw [inv.unseen s hs] at hv
      cases hv
  by_cases hmin : min_count > 1
  · refine ⟨removeUnderMinCount st.table, st.load_order,
      by simp [compileCounts, h1, hmin], inv.order_eq, ?_, ?_⟩
    · intro s v hv
      rw [removeUnderMinCount_get?] at hv
      cases hg : GoMap.get? st.table s with
      | none => simp [hg] at hv
      | some w =>
        by_cases hz : (0 : ℚ) ∈ w
        · simp [hg, hz] at hv
        · simp only [hg, Option.some_bind, hz, if_false, Option.some.injEq] at hv
          rw [← hv]
          exact (hget s w hg).2
    · intro s
      rw [GoMap.mem_keys_iff]
      constructor
      · rintro ⟨v, hv⟩
        rw [removeUnderMinCount_get?] at hv
        cases hg : GoMap.get? st.table s with
        | none => simp [hg] at hv
        | some w =>
          by_cases hz : (0 : ℚ) ∈ w
          · simp [hg, hz] at hv
          · obtain ⟨hs, hw⟩ := hget s w hg
            exact ⟨hs, fun _ => hw ▸ hz⟩
      · rintro ⟨hs, hz⟩
        refine ⟨arrivals.map (column s), ?_⟩
        rw [removeUnderMinCount_get?, inv.seen s hs]
        simp [rowAfter, hz hmin]
  · refine ⟨st.table, st.load_order, by simp [compileCounts, h1, hmin], inv.order_eq,
      fun s v hv => (hget s v hv).2, ?_⟩
    intro s
    constructor
    · intro hs
      obtain ⟨v, hv⟩ := (GoMap.mem_keys_iff st.table s).1 hs
      exact ⟨(hget s v hv).1, fun h => absurd h hmin⟩
    · rintro ⟨hs, _⟩
      exact (GoMap.mem_keys_iff st.table s).2 ⟨_, inv.seen s hs⟩

/-- C18: for single-file results with well-formed maps, every permutation `σ` of
their positions and every `min_count`, with `no_of_files` their number,
`compileCounts` returns on the permuted arrivals a table with the same
sequences as on the original arrivals, and column `σ i` of its load order and
of every vector holds what column `i` holds in the original result. -/
theorem compileCounts_permutation (arrivals : List (GoString × GoMap ℚ))
    (σ : Equiv.Perm (Fin arrivals.length)) (min_count : ℚ)
    (hwf : ∀ p ∈ arrivals, GoMap.WF p.2) :
    ∃ table load_order table' load_order',
      compileCounts (singleFileMaps arrivals) (arrivals.length : Int) min_count
        = some (table, load_order) ∧
      compileCounts (singleFileMaps (permuteBy arrivals σ)) (arrivals.length : Int) min_count
        = some (table', load_order') ∧
      (∀ s, s ∈ GoMap.keys table' ↔ s ∈ GoMap.keys table) ∧
      (∀ i : Fin arrivals.length, load_order'[(σ i).val]? = load_order[i.val]?) ∧
      (∀ s v v', GoMap.get? table s = some v → GoMap.get? table' s = some v' →
        ∀ i : Fin arrivals.length, v'[(σ i).val]? = v[i.val]?) := by
  have hmem := mem_permuteBy arrivals σ
  have hwf' : ∀ p ∈ permuteBy arrivals σ, GoMap.WF p.2 := fun p hp => hwf p ((hmem p).1 hp)
  obtain ⟨table, lo, h1, h2, h3, h4⟩ := compileCounts_single arrivals min_count hwf
  obtain ⟨table', lo', h1', h2', h3', h4'⟩ :=
    compileCounts_single (permuteBy arrivals σ) min_count hwf'
  rw [permuteBy_length] at h1'
  have hseen : ∀ s, SeenIn (permuteBy arrivals σ) s ↔ SeenIn arrivals s := by
    intro s
    constructor
    · rintro ⟨p, hp, hs⟩
      exact ⟨p, (hmem p).1 hp, hs⟩
    · rintro ⟨p, hp, hs⟩
      exact ⟨p, (hmem p).2 hp, hs⟩
  have hzero : ∀ s, (0 : ℚ) ∈ (permuteBy arrivals σ).map (column s) ↔
      (0 : ℚ) ∈ arrivals.map (column s) := by
    intro s
    simp only [List.mem_map]
    constructor
    · rintro ⟨p, hp, hc⟩
      exact ⟨p, (hmem p).1 hp, hc⟩
    · rintro ⟨p, hp, hc⟩
      exact ⟨p, (hmem p).2 hp, hc⟩
  have hcol : ∀ {β : Type} (f : GoString × GoMap ℚ → β) (i : Fin arrivals.length),
      ((permuteBy arrivals σ).map f)[(σ i).val]? = (arrivals.map f)[i.val]? := by
    intro β f i
    rw [List.getElem?_map, List.getElem?_map, permuteBy_getElem? arrivals σ i,
      List.getElem?_eq_getElem i.isLt]
    rfl
  refine ⟨table, lo, table', lo', h1, h1', ?_, ?_, ?_⟩
  · intro s
    rw [h4 s, h4' s, hseen s, hzero s]
  · intro i
    rw [h2, h2']
    exact hcol _ i
  · intro s v v' hv hv' i
    rw [h3 s v hv, h3' s v' hv']
    exact hcol _ i

/-- Witness of C18 at the two example arrivals, exchanged. -/
theorem compileCounts_permutation_witness :
    ∃ table load_order table' load_order',
      compileCounts (singleFileMaps exampleArrivals) (exampleArrivals.length : Int) 2
        = some (table, load_order) ∧
      compileCounts
          (singleFileMaps (permuteBy exampleArrivals
            (Equiv.swap ⟨0, by decide⟩ ⟨1, by decide⟩)))
          (exampleArrivals.length : Int) 2
        = some (table', load_order') ∧
      (∀ s, s ∈ GoMap.keys table' ↔ s ∈ GoMap.keys table) ∧
      (∀ i : Fin exampleArrivals.length,
        load_order'[((Equiv.swap (⟨0, by decide⟩ : Fin exampleArrivals.length)
          ⟨1, by decide⟩) i).val]? = load_order[i.val]?) ∧
      (∀ s v v', GoMap.get? table s = some v → GoMap.get? table' s = some v' →
        ∀ i : Fin exampleArrivals.length,
          v'[((Equiv.swap (⟨0, by decide⟩ : Fin exampleArrivals.length)
            ⟨1, by decide⟩) i).val]? = v[i.val]?) :=
  compileCounts_permutation exampleArrivals (Equiv.swap ⟨0, by decide⟩ ⟨1, by decide⟩) 2
    (by decide)

end Scram2
